import Mathlib

/-!
# Verification of the vortex-mobile cryptographic core

A shallow embedding, over the BN254 scalar field, of the Rust sources in
`composeApp/src/commonMain/rust/`: the optimized Poseidon permutation
(native and in-circuit variants), the paired-insertion sparse Merkle tree
with its membership-proof generation, the transaction circuit's constraint
system, and the string-parsing layer of the native and browser bindings.

Machine integers and field elements are embedded as `ZMod fieldOrder`;
in-circuit variables (`FpVar`) are embedded by their assigned values, with
each arkworks enforcement primitive embedded by its documented satisfaction
condition:

* `a.enforce_equal(b)`               — satisfied iff `a = b`;
* `a.enforce_not_equal(b)`           — satisfiable iff `a ≠ b`;
* `a.conditional_enforce_equal(b,c)` — satisfied iff `c = false ∨ a = b`;
* `a.is_eq(b)`                       — the Boolean `a = b`;
* `v.to_bits_le()`                   — the canonical little-endian bit
  decomposition of the representative of `v`.

The Poseidon round-constant tables (`poseidon_constants_opt`), the protocol
constants module (`crate::constants`), both loaded from sources not in this
tree, are modelled as parameters / from the specification, as marked on the
individual definitions.
-/

set_option maxRecDepth 100000

namespace Vortex

/-- The order of the BN254 scalar field, the modulus of `ark_bn254::Fr`. -/
def fieldOrder : ℕ :=
  21888242871839275222246405745257275088548364400416034343698204186575808495617

/-- Elements of the BN254 scalar field (`ark_bn254::Fr`). -/
abbrev F : Type := ZMod fieldOrder

instance : NeZero fieldOrder := ⟨by decide⟩

/-- Modelled from the spec: the constant tables `(round_constants, sparse, M, P)`
returned by `poseidon_constants_opt::constants_t2()` … `constants_t5()`.  The
spec says "Constants `(round_constants, sparse, M, P)` are protocol parameters
… loaded from an embedded static asset"; that asset is not among the sources,
so the tables are carried as an abstract parameter.  Vectors are embedded as
index functions (the Rust code only ever indexes them in range). -/
structure ConstTables where
  c : ℕ → F
  s : ℕ → F
  m : ℕ → ℕ → F
  p : ℕ → ℕ → F

/-- `PoseidonOptimized` (poseidon_opt/mod.rs): native optimized Poseidon hasher
state: width `t`, 8 full rounds, `n_rounds_p` partial rounds, and the four
constant tables. -/
structure PoseidonOptimized where
  t : ℕ
  nRoundsF : ℕ
  nRoundsP : ℕ
  c : ℕ → F
  s : ℕ → F
  m : ℕ → ℕ → F
  p : ℕ → ℕ → F

/-- `PoseidonOptimized::new_t2`: hasher for t=2 (1 input), 56 partial rounds. -/
def PoseidonOptimized.new_t2 (tb : ConstTables) : PoseidonOptimized :=
  ⟨2, 8, 56, tb.c, tb.s, tb.m, tb.p⟩

/-- `PoseidonOptimized::new_t3`: hasher for t=3 (2 inputs), 57 partial rounds. -/
def PoseidonOptimized.new_t3 (tb : ConstTables) : PoseidonOptimized :=
  ⟨3, 8, 57, tb.c, tb.s, tb.m, tb.p⟩

/-- `PoseidonOptimized::new_t4`: hasher for t=4 (3 inputs), 56 partial rounds. -/
def PoseidonOptimized.new_t4 (tb : ConstTables) : PoseidonOptimized :=
  ⟨4, 8, 56, tb.c, tb.s, tb.m, tb.p⟩

/-- `PoseidonOptimized::new_t5`: hasher for t=5 (4 inputs), 60 partial rounds. -/
def PoseidonOptimized.new_t5 (tb : ConstTables) : PoseidonOptimized :=
  ⟨5, 8, 60, tb.c, tb.s, tb.m, tb.p⟩

/-- `PoseidonOptimized::pow5`: the S-box `x ↦ x⁵`, computed as
`x2 = x²; x4 = x2²; x4 * x`. -/
def pow5 (x : F) : F :=
  let x2 := x * x
  let x4 := x2 * x2
  x4 * x

/-- `PoseidonOptimized::mix`: matrix–vector product with the transposed
indexing of the source, `result[i] = Σ_j matrix[j][i] * state[j]`. -/
def PoseidonOptimized.mix (hp : PoseidonOptimized) (state : List F)
    (matrix : ℕ → ℕ → F) : List F :=
  (List.range hp.t).map fun i =>
    (List.range hp.t).foldl (fun acc j => acc + matrix j i * state.getD j 0) 0

/-- `PoseidonOptimized::hash`: the optimized (circomlibjs-compatible) Poseidon
permutation.  State starts as `[0, input₁, …]`; first-half full rounds use the
MDS matrix `M`, the transition round the pre-sparse matrix `P`, partial rounds
the sparse tables `S` with stride `2t−1`, and the final full round adds no
constants. -/
def PoseidonOptimized.hash (hp : PoseidonOptimized) (inputs : List F) : F :=
  let state : List F := 0 :: inputs
  let state := state.mapIdx fun i x => x + hp.c i
  let state := (List.range (hp.nRoundsF / 2 - 1)).foldl (fun st r =>
    let st := st.map pow5
    let st := st.mapIdx fun i x => x + hp.c ((r + 1) * hp.t + i)
    hp.mix st hp.m) state
  let state := state.map pow5
  let state := state.mapIdx fun i x => x + hp.c ((hp.nRoundsF / 2 - 1 + 1) * hp.t + i)
  let state := hp.mix state hp.p
  let state := (List.range hp.nRoundsP).foldl (fun st r =>
    let st := st.set 0 (pow5 (st.getD 0 0) + hp.c ((hp.nRoundsF / 2 + 1) * hp.t + r))
    let stride := hp.t * 2 - 1
    let s0 := (List.range hp.t).foldl
      (fun acc j => acc + hp.s (stride * r + j) * st.getD j 0) 0
    let st0 := st.getD 0 0
    let st := st.mapIdx fun k x =>
      if k = 0 then x else x + st0 * hp.s (stride * r + hp.t + k - 1)
    st.set 0 s0) state
  let state := (List.range (hp.nRoundsF / 2 - 1)).foldl (fun st r =>
    let st := st.map pow5
    let st := st.mapIdx fun i x =>
      x + hp.c ((hp.nRoundsF / 2 + 1) * hp.t + hp.nRoundsP + r * hp.t + i)
    hp.mix st hp.m) state
  let state := state.map pow5
  let state := hp.mix state hp.m
  state.getD 0 0

/-- `PoseidonOptimized::hash1`. -/
def PoseidonOptimized.hash1 (hp : PoseidonOptimized) (x : F) : F := hp.hash [x]

/-- `PoseidonOptimized::hash2`. -/
def PoseidonOptimized.hash2 (hp : PoseidonOptimized) (x y : F) : F := hp.hash [x, y]

/-- `PoseidonOptimized::hash3`. -/
def PoseidonOptimized.hash3 (hp : PoseidonOptimized) (x y z : F) : F := hp.hash [x, y, z]

/-- `PoseidonOptimized::hash4`. -/
def PoseidonOptimized.hash4 (hp : PoseidonOptimized) (x y z w : F) : F :=
  hp.hash [x, y, z, w]

/-- `PoseidonOptimizedVar` (poseidon_opt/mod.rs): the R1CS constraint gadget for
the optimized Poseidon hash, embedded by the values its field variables take. -/
structure PoseidonOptimizedVar where
  t : ℕ
  nRoundsF : ℕ
  nRoundsP : ℕ
  c : ℕ → F
  s : ℕ → F
  m : ℕ → ℕ → F
  p : ℕ → ℕ → F

/-- `PoseidonOptimizedVar::new_t2`. -/
def PoseidonOptimizedVar.new_t2 (tb : ConstTables) : PoseidonOptimizedVar :=
  ⟨2, 8, 56, tb.c, tb.s, tb.m, tb.p⟩

/-- `PoseidonOptimizedVar::new_t3`. -/
def PoseidonOptimizedVar.new_t3 (tb : ConstTables) : PoseidonOptimizedVar :=
  ⟨3, 8, 57, tb.c, tb.s, tb.m, tb.p⟩

/-- `PoseidonOptimizedVar::new_t4`. -/
def PoseidonOptimizedVar.new_t4 (tb : ConstTables) : PoseidonOptimizedVar :=
  ⟨4, 8, 56, tb.c, tb.s, tb.m, tb.p⟩

/-- `PoseidonOptimizedVar::new_t5`. -/
def PoseidonOptimizedVar.new_t5 (tb : ConstTables) : PoseidonOptimizedVar :=
  ⟨5, 8, 60, tb.c, tb.s, tb.m, tb.p⟩

/-- `PoseidonOptimizedVar::pow5_var`: S-box on a field variable, as three
quadratic constraints `x² , (x²)² , x⁴·x`; its value is `x⁵`. -/
def pow5Var (x : F) : F :=
  let x2 := x * x
  let x4 := x2 * x2
  x4 * x

/-- `PoseidonOptimizedVar::mix_var`: the value of the in-circuit matrix–vector
product, accumulated as `acc += state[j] * matrix[j][i]`. -/
def PoseidonOptimizedVar.mixVar (hp : PoseidonOptimizedVar) (state : List F)
    (matrix : ℕ → ℕ → F) : List F :=
  (List.range hp.t).map fun i =>
    (List.range hp.t).foldl (fun acc j => acc + state.getD j 0 * matrix j i) 0

/-- `PoseidonOptimizedVar::hash`: value semantics of the constraint-generating
hash, which mirrors the native optimized algorithm round for round. -/
def PoseidonOptimizedVar.hash (hp : PoseidonOptimizedVar) (inputs : List F) : F :=
  let state : List F := 0 :: inputs
  let state := state.mapIdx fun i x => x + hp.c i
  let state := (List.range (hp.nRoundsF / 2 - 1)).foldl (fun st r =>
    let st := st.map pow5Var
    let st := st.mapIdx fun i x => x + hp.c ((r + 1) * hp.t + i)
    hp.mixVar st hp.m) state
  let state := state.map pow5Var
  let state := state.mapIdx fun i x => x + hp.c ((hp.nRoundsF / 2 - 1 + 1) * hp.t + i)
  let state := hp.mixVar state hp.p
  let state := (List.range hp.nRoundsP).foldl (fun st r =>
    let st := st.set 0 (pow5Var (st.getD 0 0) + hp.c ((hp.nRoundsF / 2 + 1) * hp.t + r))
    let stride := hp.t * 2 - 1
    let s0 := (List.range hp.t).foldl
      (fun acc j => acc + st.getD j 0 * hp.s (stride * r + j)) 0
    let st0 := st.getD 0 0
    let st := st.mapIdx fun k x =>
      if k = 0 then x else x + st0 * hp.s (stride * r + hp.t + k - 1)
    st.set 0 s0) state
  let state := (List.range (hp.nRoundsF / 2 - 1)).foldl (fun st r =>
    let st := st.map pow5Var
    let st := st.mapIdx fun i x =>
      x + hp.c ((hp.nRoundsF / 2 + 1) * hp.t + hp.nRoundsP + r * hp.t + i)
    hp.mixVar st hp.m) state
  let state := state.map pow5Var
  let state := hp.mixVar state hp.m
  state.getD 0 0

/-- `PoseidonOptimizedVar::hash1`. -/
def PoseidonOptimizedVar.hash1 (hp : PoseidonOptimizedVar) (x : F) : F := hp.hash [x]

/-- `PoseidonOptimizedVar::hash2`. -/
def PoseidonOptimizedVar.hash2 (hp : PoseidonOptimizedVar) (x y : F) : F :=
  hp.hash [x, y]

/-- `PoseidonOptimizedVar::hash3`. -/
def PoseidonOptimizedVar.hash3 (hp : PoseidonOptimizedVar) (a b c : F) : F :=
  hp.hash [a, b, c]

/-- `PoseidonOptimizedVar::hash4`. -/
def PoseidonOptimizedVar.hash4 (hp : PoseidonOptimizedVar) (a b c d : F) : F :=
  hp.hash [a, b, c, d]

theorem foldl_add_mul_comm (l : List ℕ) (a : F) (f g : ℕ → F) :
    l.foldl (fun acc j => acc + f j * g j) a
      = l.foldl (fun acc j => acc + g j * f j) a := by
  simp only [mul_comm]

/-- The gadget S-box and the native S-box are the same function. -/
theorem pow5Var_eq_pow5 : pow5Var = pow5 := rfl

/-- The gadget's matrix mix computes the same values as the native mix. -/
theorem mixVar_eq_mix (t nF nP : ℕ) (c s : ℕ → F) (m q : ℕ → ℕ → F)
    (state : List F) (matrix : ℕ → ℕ → F) :
    PoseidonOptimizedVar.mixVar ⟨t, nF, nP, c, s, m, q⟩ state matrix
      = PoseidonOptimized.mix ⟨t, nF, nP, c, s, m, q⟩ state matrix := by
  unfold PoseidonOptimizedVar.mixVar PoseidonOptimized.mix
  refine List.map_congr_left fun i _ => ?_
  exact foldl_add_mul_comm _ _ (fun j => state.getD j 0) (fun j => matrix j i)

/-- The gadget hash equals the native hash on every input list and table. -/
theorem hashVar_eq_hash (t nF nP : ℕ) (c s : ℕ → F) (m q : ℕ → ℕ → F)
    (inputs : List F) :
    PoseidonOptimizedVar.hash ⟨t, nF, nP, c, s, m, q⟩ inputs
      = PoseidonOptimized.hash ⟨t, nF, nP, c, s, m, q⟩ inputs := by
  have hpartial : ∀ (st : List F) (r : ℕ),
      (List.range t).foldl
        (fun acc j => acc + st.getD j 0 * s ((t * 2 - 1) * r + j)) 0
        = (List.range t).foldl
          (fun acc j => acc + s ((t * 2 - 1) * r + j) * st.getD j 0) 0 :=
    fun st r =>
      foldl_add_mul_comm _ _ (fun j => st.getD j 0)
        (fun j => s ((t * 2 - 1) * r + j))
  simp only [PoseidonOptimizedVar.hash, PoseidonOptimized.hash,
    mixVar_eq_mix, hpartial, pow5Var_eq_pow5]

/-- **C7.**  For every tuple of 1 to 4 field elements, the in-circuit Poseidon
gadget of the matching width `t = K + 1` computes the same value as the native
`PoseidonOptimized::hash`, whatever the constant tables. -/
theorem poseidon_gadget_matches_native (tb : ConstTables) (inputs : List F) :
    (inputs.length = 1 →
      (PoseidonOptimizedVar.new_t2 tb).hash inputs
        = (PoseidonOptimized.new_t2 tb).hash inputs) ∧
    (inputs.length = 2 →
      (PoseidonOptimizedVar.new_t3 tb).hash inputs
        = (PoseidonOptimized.new_t3 tb).hash inputs) ∧
    (inputs.length = 3 →
      (PoseidonOptimizedVar.new_t4 tb).hash inputs
        = (PoseidonOptimized.new_t4 tb).hash inputs) ∧
    (inputs.length = 4 →
      (PoseidonOptimizedVar.new_t5 tb).hash inputs
        = (PoseidonOptimized.new_t5 tb).hash inputs) :=
  ⟨fun _ => hashVar_eq_hash 2 8 56 tb.c tb.s tb.m tb.p inputs,
   fun _ => hashVar_eq_hash 3 8 57 tb.c tb.s tb.m tb.p inputs,
   fun _ => hashVar_eq_hash 4 8 56 tb.c tb.s tb.m tb.p inputs,
   fun _ => hashVar_eq_hash 5 8 60 tb.c tb.s tb.m tb.p inputs⟩

/-- **C7, witness.**  The gadget and native hashes agree on concrete tuples of
each arity under the concrete tables `tbW`. -/
theorem poseidon_gadget_matches_native_witness :
    (PoseidonOptimizedVar.new_t2 tbW).hash [1]
        = (PoseidonOptimized.new_t2 tbW).hash [1] ∧
    (PoseidonOptimizedVar.new_t3 tbW).hash [1, 2]
        = (PoseidonOptimized.new_t3 tbW).hash [1, 2] ∧
    (PoseidonOptimizedVar.new_t4 tbW).hash [1, 2, 3]
        = (PoseidonOptimized.new_t4 tbW).hash [1, 2, 3] ∧
    (PoseidonOptimizedVar.new_t5 tbW).hash [1, 2, 3, 4]
        = (PoseidonOptimized.new_t5 tbW).hash [1, 2, 3, 4] :=
  ⟨(poseidon_gadget_matches_native tbW [1]).1 rfl,
   (poseidon_gadget_matches_native tbW [1, 2]).2.1 rfl,
   (poseidon_gadget_matches_native tbW [1, 2, 3]).2.2.1 rfl,
   (poseidon_gadget_matches_native tbW [1, 2, 3, 4]).2.2.2 rfl⟩

/-! ## The Merkle path gadget (merkle_tree.rs, `PathVar`) -/

/-- `PathVar::root_hash`: fold the running hash up the path; at each level the
running hash is selected onto the side whose stored entry it matches
(`previous_is_left = prev == left`), and the pair is hashed with the width-3
Poseidon gadget. -/
def rootHashVar (hp : PoseidonOptimizedVar) (leaf : F) (path : List (F × F)) : F :=
  path.foldl (fun previousHash pr =>
    let previousIsLeft := previousHash == pr.1
    let leftHash := if previousIsLeft then previousHash else pr.1
    let rightHash := if previousIsLeft then pr.2 else previousHash
    hp.hash2 leftHash rightHash) leaf

/-- `PathVar::check_membership`: the Boolean `root == root_hash(leaf)`. -/
def checkMembershipVar (hp : PoseidonOptimizedVar) (root leaf : F)
    (path : List (F × F)) : Bool :=
  root == rootHashVar hp leaf path

/-! ## The transaction circuit (circuit/mod.rs) -/

/-- Modelled from the spec: `crate::constants::MAX_AMOUNT_BITS` (the constants
module is not among the sources).  "All amounts are non-negative integers
< 2^248"; the range check asserts that bits `[248..254)` are zero. -/
def MAX_AMOUNT_BITS : ℕ := 248

/-- `TransactionCircuit` (circuit/mod.rs): one assignment of every public and
witness variable of the 2-input/2-output transaction circuit.  The Merkle
paths are the per-input lists of `(left, right)` sibling pairs (the source
fixes their length by the missing `MERKLE_TREE_LEVEL` constant; nothing below
depends on it). -/
structure TransactionCircuit where
  vortex : F
  root : F
  publicAmount : F
  inputNullifier0 : F
  inputNullifier1 : F
  outputCommitment0 : F
  outputCommitment1 : F
  hashedAccountSecret : F
  accountSecret : F
  inPrivateKeys : Fin 2 → F
  inAmounts : Fin 2 → F
  inBlindings : Fin 2 → F
  inPathIndices : Fin 2 → F
  merklePaths : Fin 2 → List (F × F)
  outPublicKeys : Fin 2 → F
  outAmounts : Fin 2 → F
  outBlindings : Fin 2 → F

/-- `TransactionCircuit::get_public_inputs`: the vector of public inputs in
the order the source lists them. -/
def TransactionCircuit.getPublicInputs (c : TransactionCircuit) : List F :=
  [c.vortex, c.root, c.publicAmount, c.inputNullifier0, c.inputNullifier1,
   c.outputCommitment0, c.outputCommitment1, c.hashedAccountSecret]

/-- The sequence of values passed to `FpVar::new_input` in
`TransactionCircuit::generate_constraints`, in call order (circuit/mod.rs
lines 217–239). -/
def TransactionCircuit.allocatedPublicInputs (c : TransactionCircuit) : List F :=
  [c.vortex, c.root, c.publicAmount, c.inputNullifier0, c.inputNullifier1,
   c.outputCommitment0, c.outputCommitment1, c.hashedAccountSecret]

/-- `enforce_range_check` (circuit/mod.rs): decompose `value` into its 254
canonical little-endian bits, and for the bits `[MAX_AMOUNT_BITS..254)`
enforce `bit = false` conditionally on `!value_is_zero`.  The result is
whether every emitted conditional constraint is satisfied. -/
def enforceRangeCheck (value : F) (valueIsZero : Bool) : Bool :=
  let valueBits := (List.range 254).map fun k => value.val.testBit k
  let valueIsNonZero := !valueIsZero
  ((valueBits.drop MAX_AMOUNT_BITS).take (254 - MAX_AMOUNT_BITS)).all fun bit =>
    !valueIsNonZero || (bit == false)

/-- The Poseidon gadget tables for the four widths used by the circuit, as
produced by `constants_t2()` … `constants_t5()`. -/
structure PoseidonAssets where
  t2 : ConstTables
  t3 : ConstTables
  t4 : ConstTables
  t5 : ConstTables

/-- The account-binding block of `generate_constraints`:
`expected = Poseidon1(account_secret)` must equal `hashed_account_secret`
conditionally on `hashed_account_secret ≠ 0`. -/
def accountCheck (hasherT2 : PoseidonOptimizedVar) (accountSecret hashedAccountSecret : F) :
    Bool :=
  let expectedHashedAccountSecret := hasherT2.hash1 accountSecret
  let hashedAccountSecretIsNonZero := !(hashedAccountSecret == 0)
  !hashedAccountSecretIsNonZero || (expectedHashedAccountSecret == hashedAccountSecret)

/-- One iteration of the input-UTXO loop of `generate_constraints`: derive the
public key, commitment, signature and nullifier; enforce the nullifier equals
the public input; range-check the amount; and enforce Merkle membership
conditionally on the amount being non-zero. -/
def inputCheck (hasherT2 hasherT3 hasherT4 hasherT5 : PoseidonOptimizedVar)
    (vortex root nullifierPub privateKey amount blinding pathIndex : F)
    (merklePath : List (F × F)) : Bool :=
  let publicKey := hasherT2.hash1 privateKey
  let commitment := hasherT5.hash4 amount publicKey blinding vortex
  let signature := hasherT4.hash3 privateKey commitment pathIndex
  let nullifier := hasherT4.hash3 commitment pathIndex signature
  let amountIsZero := amount == 0
  let merklePathMembership := checkMembershipVar hasherT3 root commitment merklePath
  let amountIsNonZero := !amountIsZero
  (nullifier == nullifierPub) &&
    enforceRangeCheck amount amountIsZero &&
    (!amountIsNonZero || (merklePathMembership == true))

/-- One iteration of the output-UTXO loop of `generate_constraints`: the
computed commitment must equal the public input, and the amount is
range-checked. -/
def outputCheck (hasherT5 : PoseidonOptimizedVar)
    (vortex commitmentPub publicKey amount blinding : F) : Bool :=
  let expectedCommitment := hasherT5.hash4 amount publicKey blinding vortex
  let amountIsZero := amount == 0
  (expectedCommitment == commitmentPub) && enforceRangeCheck amount amountIsZero

/-- `TransactionCircuit::generate_constraints`: whether the whole constraint
system is satisfied by the assignment `c` — the account binding, both input
blocks, both output blocks, the nullifier distinctness constraint
`enforce_not_equal`, and the amount-conservation equality
`sum_ins + public_amount == sum_outs`. -/
def TransactionCircuit.satisfied (A : PoseidonAssets) (c : TransactionCircuit) : Bool :=
  let hasherT2 := PoseidonOptimizedVar.new_t2 A.t2
  let hasherT3 := PoseidonOptimizedVar.new_t3 A.t3
  let hasherT4 := PoseidonOptimizedVar.new_t4 A.t4
  let hasherT5 := PoseidonOptimizedVar.new_t5 A.t5
  let inputNullifiers : Fin 2 → F := ![c.inputNullifier0, c.inputNullifier1]
  let outputCommitment : Fin 2 → F := ![c.outputCommitment0, c.outputCommitment1]
  let sumIns : F := 0 + c.inAmounts 0 + c.inAmounts 1
  let sumOuts : F := 0 + c.outAmounts 0 + c.outAmounts 1
  accountCheck hasherT2 c.accountSecret c.hashedAccountSecret &&
    (inputCheck hasherT2 hasherT3 hasherT4 hasherT5 c.vortex c.root
      (inputNullifiers 0) (c.inPrivateKeys 0) (c.inAmounts 0) (c.inBlindings 0)
      (c.inPathIndices 0) (c.merklePaths 0)) &&
    (inputCheck hasherT2 hasherT3 hasherT4 hasherT5 c.vortex c.root
      (inputNullifiers 1) (c.inPrivateKeys 1) (c.inAmounts 1) (c.inBlindings 1)
      (c.inPathIndices 1) (c.merklePaths 1)) &&
    (outputCheck hasherT5 c.vortex (outputCommitment 0) (c.outPublicKeys 0)
      (c.outAmounts 0) (c.outBlindings 0)) &&
    (outputCheck hasherT5 c.vortex (outputCommitment 1) (c.outPublicKeys 1)
      (c.outAmounts 1) (c.outBlindings 1)) &&
    !(inputNullifiers 0 == inputNullifiers 1) &&
    ((sumIns + c.publicAmount) == sumOuts)

/-! ## Concrete instances used to exercise the circuit -/

/-- A concrete, nondegenerate constant table used to instantiate the abstract
Poseidon parameters on concrete runs. -/
def tbW : ConstTables :=
  ⟨fun i => if i = 0 then 1 else 0, fun _ => 1,
   fun j i => if i = 0 then 1 else if j = i then 1 else 0,
   fun j i => if i = 0 then 1 else if j = i then 1 else 0⟩

/-- The four circuit tables instantiated with `tbW`. -/
def assetsW : PoseidonAssets := ⟨tbW, tbW, tbW, tbW⟩

/-- `Poseidon1(0)` under `tbW`. -/
def pkN : F :=
  5320346031890543656164447280909747074247839564849136135246890458283392975322

/-- `Poseidon4(0, pkN, 0, 0)` under `tbW`: the commitment of the zero note. -/
def comN : F :=
  21373191942393203886170762323185435265392566816288475395590122439126941371422

/-- `Poseidon3(0, comN, 0)` under `tbW`. -/
def sig0N : F :=
  16855268407493107344034012443023955329245362932902295930260595311467150435994

/-- `Poseidon3(0, comN, 1)` under `tbW`. -/
def sig1N : F :=
  8068638099961873675760211593137332155072273893325243935662572930970430530058

/-- `Poseidon3(comN, 0, sig0N)` under `tbW`: the first input's nullifier. -/
def nf0N : F :=
  19055914934711844491265194548345590228649906336434222760668729489526954579255

/-- `Poseidon3(comN, 1, sig1N)` under `tbW`: the second input's nullifier. -/
def nf1N : F :=
  11855308840942182190222047166965998423933312003212781799327007190570799832973

/-- `Poseidon4(0, 0, 0, 0)` under `tbW`: the first output's commitment. -/
def oc0N : F :=
  2658796742185734990486918263205086408750291886008332083857124508110977982487

/-- `Poseidon4(0, 0, 1, 0)` under `tbW`: the second output's commitment. -/
def oc1N : F :=
  12045925233093353025732553040943129538594371729494102866056383185109339439732

theorem hpkW : (PoseidonOptimizedVar.new_t2 tbW).hash1 0 = pkN := by decide

theorem hcomW : (PoseidonOptimizedVar.new_t5 tbW).hash4 0 pkN 0 0 = comN := by decide

theorem hsig0W : (PoseidonOptimizedVar.new_t4 tbW).hash3 0 comN 0 = sig0N := by decide

theorem hsig1W : (PoseidonOptimizedVar.new_t4 tbW).hash3 0 comN 1 = sig1N := by decide

theorem hnf0W : (PoseidonOptimizedVar.new_t4 tbW).hash3 comN 0 sig0N = nf0N := by decide

theorem hnf1W : (PoseidonOptimizedVar.new_t4 tbW).hash3 comN 1 sig1N = nf1N := by decide

theorem hoc0W : (PoseidonOptimizedVar.new_t5 tbW).hash4 0 0 0 0 = oc0N := by decide

theorem hoc1W : (PoseidonOptimizedVar.new_t5 tbW).hash4 0 0 1 0 = oc1N := by decide

/-- A satisfying assignment: both inputs spend the zero note (so the Merkle
check is skipped), outputs are zero notes, no account binding, zero public
amount. -/
def aW : TransactionCircuit :=
  { vortex := 0, root := 0, publicAmount := 0,
    inputNullifier0 := nf0N, inputNullifier1 := nf1N,
    outputCommitment0 := oc0N, outputCommitment1 := oc1N,
    hashedAccountSecret := 0, accountSecret := 0,
    inPrivateKeys := ![0, 0], inAmounts := ![0, 0], inBlindings := ![0, 0],
    inPathIndices := ![0, 1], merklePaths := ![[], []],
    outPublicKeys := ![0, 0], outAmounts := ![0, 0], outBlindings := ![0, 1] }

/-- The same assignment with the account binding active:
`hashed_account_secret = Poseidon1(0) = pkN ≠ 0`. -/
def aW4 : TransactionCircuit := { aW with hashedAccountSecret := pkN }

/-- The all-zero assignment (both public nullifiers zero, hence equal). -/
def aZ : TransactionCircuit :=
  { vortex := 0, root := 0, publicAmount := 0,
    inputNullifier0 := 0, inputNullifier1 := 0,
    outputCommitment0 := 0, outputCommitment1 := 0,
    hashedAccountSecret := 0, accountSecret := 0,
    inPrivateKeys := ![0, 0], inAmounts := ![0, 0], inBlindings := ![0, 0],
    inPathIndices := ![0, 0], merklePaths := ![[], []],
    outPublicKeys := ![0, 0], outAmounts := ![0, 0], outBlindings := ![0, 0] }

theorem aW_satisfied : TransactionCircuit.satisfied assetsW aW = true := by
  simp only [TransactionCircuit.satisfied, aW, assetsW, inputCheck,
    Matrix.cons_val_zero, Matrix.cons_val_one, Matrix.head_cons]
  rw [hpkW, hcomW, hsig0W, hsig1W, hnf0W, hnf1W]
  decide

theorem aW4_satisfied : TransactionCircuit.satisfied assetsW aW4 = true := by
  simp only [TransactionCircuit.satisfied, aW4, aW, assetsW, inputCheck, accountCheck,
    Matrix.cons_val_zero, Matrix.cons_val_one, Matrix.head_cons]
  rw [hpkW, hcomW, hsig0W, hsig1W, hnf0W, hnf1W]
  decide

/-- Unpacking a satisfied constraint system into its constraint blocks. -/
theorem satisfied_parts (A : PoseidonAssets) (c : TransactionCircuit)
    (h : c.satisfied A = true) :
    accountCheck (PoseidonOptimizedVar.new_t2 A.t2) c.accountSecret
        c.hashedAccountSecret = true ∧
    (∀ i : Fin 2,
      inputCheck (PoseidonOptimizedVar.new_t2 A.t2) (PoseidonOptimizedVar.new_t3 A.t3)
        (PoseidonOptimizedVar.new_t4 A.t4) (PoseidonOptimizedVar.new_t5 A.t5)
        c.vortex c.root (![c.inputNullifier0, c.inputNullifier1] i)
        (c.inPrivateKeys i) (c.inAmounts i) (c.inBlindings i)
        (c.inPathIndices i) (c.merklePaths i) = true) ∧
    (∀ i : Fin 2,
      outputCheck (PoseidonOptimizedVar.new_t5 A.t5) c.vortex
        (![c.outputCommitment0, c.outputCommitment1] i) (c.outPublicKeys i)
        (c.outAmounts i) (c.outBlindings i) = true) ∧
    c.inputNullifier0 ≠ c.inputNullifier1 ∧
    0 + c.inAmounts 0 + c.inAmounts 1 + c.publicAmount
      = 0 + c.outAmounts 0 + c.outAmounts 1 := by
  simp only [TransactionCircuit.satisfied, Bool.and_eq_true, Matrix.cons_val_zero,
    Matrix.cons_val_one, Matrix.head_cons, Bool.not_eq_true', beq_eq_false_iff_ne,
    beq_iff_eq] at h
  obtain ⟨⟨⟨⟨⟨⟨hacct, hin0⟩, hin1⟩, hout0⟩, hout1⟩, hne⟩, hsum⟩ := h
  refine ⟨hacct, fun i => ?_, fun i => ?_, hne, hsum⟩
  · fin_cases i
    · simpa using hin0
    · simpa using hin1
  · fin_cases i
    · simpa using hout0
    · simpa using hout1

/-- The range-check conjunct of one input/output block. -/
theorem inputCheck_range (h2 h3 h4 h5 : PoseidonOptimizedVar)
    (vortex root nullifierPub sk amt blind idx : F) (mp : List (F × F))
    (h : inputCheck h2 h3 h4 h5 vortex root nullifierPub sk amt blind idx mp = true) :
    enforceRangeCheck amt (amt == 0) = true := by
  simp only [inputCheck, Bool.and_eq_true] at h
  exact h.1.2

theorem outputCheck_range (h5 : PoseidonOptimizedVar)
    (vortex commitmentPub pk amt blind : F)
    (h : outputCheck h5 vortex commitmentPub pk amt blind = true) :
    enforceRangeCheck amt (amt == 0) = true := by
  simp only [outputCheck, Bool.and_eq_true] at h
  exact h.2

/-- `enforce_range_check` unrolled to its six emitted conditional constraints,
one per bit index in `[248..254)`. -/
theorem enforceRangeCheck_eq (v : F) (z : Bool) :
    enforceRangeCheck v z
      = [248, 249, 250, 251, 252, 253].all
          (fun k => !(!z) || (v.val.testBit k == false)) := rfl

/-! ## Claim theorems C1–C5 -/

/-- A circuit assignment with pairwise distinct public-input values, to pin
down positions in the public-input vector. -/
def cx : TransactionCircuit :=
  { vortex := 10, root := 11, publicAmount := 12,
    inputNullifier0 := 13, inputNullifier1 := 14,
    outputCommitment0 := 15, outputCommitment1 := 16,
    hashedAccountSecret := 17, accountSecret := 0,
    inPrivateKeys := ![0, 0], inAmounts := ![0, 0], inBlindings := ![0, 0],
    inPathIndices := ![0, 0], merklePaths := ![[], []],
    outPublicKeys := ![0, 0], outAmounts := ![0, 0], outBlindings := ![0, 0] }

/-- **C1, counterexample.**  On an assignment with pairwise distinct values,
neither `get_public_inputs` nor the `FpVar::new_input` call order produces the
claimed vector `[vortex, root, nullifier_0, nullifier_1, commitment_out_0,
commitment_out_1, public_amount, hashed_account_secret]`: `public_amount` is
allocated third, not seventh. -/
theorem publicInputs_claimed_order_false :
    cx.getPublicInputs
        ≠ [cx.vortex, cx.root, cx.inputNullifier0, cx.inputNullifier1,
           cx.outputCommitment0, cx.outputCommitment1, cx.publicAmount,
           cx.hashedAccountSecret] ∧
    cx.allocatedPublicInputs
        ≠ [cx.vortex, cx.root, cx.inputNullifier0, cx.inputNullifier1,
           cx.outputCommitment0, cx.outputCommitment1, cx.publicAmount,
           cx.hashedAccountSecret] := by
  constructor <;> decide

/-- **C1, amended.**  The public-input vector — both the list returned by
`get_public_inputs` and the `FpVar::new_input` allocation order in
`generate_constraints` — is `[vortex, root, public_amount, nullifier_0,
nullifier_1, commitment_out_0, commitment_out_1, hashed_account_secret]`:
`public_amount` is the third element, and the two orders agree. -/
theorem publicInputs_order (c : TransactionCircuit) :
    c.getPublicInputs
        = [c.vortex, c.root, c.publicAmount, c.inputNullifier0, c.inputNullifier1,
           c.outputCommitment0, c.outputCommitment1, c.hashedAccountSecret] ∧
    c.allocatedPublicInputs = c.getPublicInputs ∧
    c.getPublicInputs.getD 2 0 = c.publicAmount := by
  exact ⟨rfl, rfl, rfl⟩

/-- **C2.**  The constraint system is satisfied only if
`in_amounts[0] + in_amounts[1] + public_amount = out_amounts[0] + out_amounts[1]`
in the BN254 scalar field, for every Poseidon table; an assignment violating
the equation leaves the system unsatisfied. -/
theorem satisfied_amount_conservation (A : PoseidonAssets) (c : TransactionCircuit) :
    (c.satisfied A = true →
      c.inAmounts 0 + c.inAmounts 1 + c.publicAmount
        = c.outAmounts 0 + c.outAmounts 1) ∧
    (c.inAmounts 0 + c.inAmounts 1 + c.publicAmount
        ≠ c.outAmounts 0 + c.outAmounts 1 → c.satisfied A = false) := by
  have key : c.satisfied A = true →
      c.inAmounts 0 + c.inAmounts 1 + c.publicAmount
        = c.outAmounts 0 + c.outAmounts 1 := by
    intro h
    have hsum := (satisfied_parts A c h).2.2.2.2
    simpa [zero_add] using hsum
  refine ⟨key, fun hne => ?_⟩
  cases hb : c.satisfied A with
  | false => rfl
  | true => exact absurd (key hb) hne

/-- **C2, witness.**  The concrete satisfying assignment `aW` conserves value. -/
theorem satisfied_amount_conservation_witness :
    aW.inAmounts 0 + aW.inAmounts 1 + aW.publicAmount
      = aW.outAmounts 0 + aW.outAmounts 1 :=
  (satisfied_amount_conservation assetsW aW).1 aW_satisfied

/-- **C3.**  Any assignment whose two public nullifier inputs are equal leaves
the constraint system unsatisfied, for every Poseidon table. -/
theorem satisfied_requires_distinct_nullifiers (A : PoseidonAssets)
    (c : TransactionCircuit) (h : c.inputNullifier0 = c.inputNullifier1) :
    c.satisfied A = false := by
  cases hb : c.satisfied A with
  | false => rfl
  | true => exact absurd h (satisfied_parts A c hb).2.2.2.1

/-- **C3, witness.**  The all-zero assignment has equal nullifier inputs and is
rejected. -/
theorem satisfied_requires_distinct_nullifiers_witness :
    aZ.satisfied assetsW = false :=
  satisfied_requires_distinct_nullifiers assetsW aZ rfl

/-- **C4.**  The account-binding constraint enforces
`Poseidon1(account_secret) = hashed_account_secret` exactly when
`hashed_account_secret ≠ 0`: with a zero hashed secret the constraint holds for
every account secret, and with a non-zero hashed secret a satisfied system
forces `Poseidon1(account_secret) = hashed_account_secret`. -/
theorem satisfied_account_binding (A : PoseidonAssets) :
    (∀ secret : F,
      accountCheck (PoseidonOptimizedVar.new_t2 A.t2) secret 0 = true) ∧
    (∀ c : TransactionCircuit, c.hashedAccountSecret ≠ 0 → c.satisfied A = true →
      (PoseidonOptimizedVar.new_t2 A.t2).hash1 c.accountSecret
        = c.hashedAccountSecret) := by
  constructor
  · intro secret
    simp [accountCheck]
  · intro c hne h
    have hacct := (satisfied_parts A c h).1
    simp only [accountCheck, Bool.not_not, Bool.or_eq_true, Bool.not_eq_true',
      beq_eq_false_iff_ne, beq_iff_eq] at hacct
    rcases hacct with hzero | heq
    · exact absurd hzero hne
    · exact heq

/-- **C4, witness.**  With `hashed_account_secret = Poseidon1(0) ≠ 0` the
satisfied assignment `aW4` forces the equation, and with a zero hashed secret
an arbitrary secret passes. -/
theorem satisfied_account_binding_witness :
    accountCheck (PoseidonOptimizedVar.new_t2 tbW) 5 0 = true ∧
    (PoseidonOptimizedVar.new_t2 assetsW.t2).hash1 aW4.accountSecret
      = aW4.hashedAccountSecret :=
  ⟨(satisfied_account_binding assetsW).1 5,
   (satisfied_account_binding assetsW).2 aW4 (by decide) aW4_satisfied⟩

/-- **C5.**  For each of the four amounts: a non-zero amount whose canonical
254-bit decomposition has any of bits 248..253 set leaves the system
unsatisfied; `2^248` has bit 248 set and fails the range check while
`2^248 − 1` passes it; and a zero flag (the amount being zero) skips the six
high-bit assertions, so the check imposes no restriction. -/
theorem range_check_248 :
    (∀ (A : PoseidonAssets) (c : TransactionCircuit) (i : Fin 2),
      c.inAmounts i ≠ 0 →
      (∃ k, MAX_AMOUNT_BITS ≤ k ∧ k < 254 ∧ (c.inAmounts i).val.testBit k) →
      c.satisfied A = false) ∧
    (∀ (A : PoseidonAssets) (c : TransactionCircuit) (i : Fin 2),
      c.outAmounts i ≠ 0 →
      (∃ k, MAX_AMOUNT_BITS ≤ k ∧ k < 254 ∧ (c.outAmounts i).val.testBit k) →
      c.satisfied A = false) ∧
    enforceRangeCheck ((2 : F) ^ 248) (((2 : F) ^ 248) == 0) = false ∧
    enforceRangeCheck ((2 : F) ^ 248 - 1) (((2 : F) ^ 248 - 1) == 0) = true ∧
    (∀ v : F, enforceRangeCheck v true = true) := by
  have hfail : ∀ v : F, v ≠ 0 →
      (∃ k, MAX_AMOUNT_BITS ≤ k ∧ k < 254 ∧ v.val.testBit k) →
      enforceRangeCheck v (v == 0) ≠ true := by
    intro v hv ⟨k, hk1, hk2, hbit⟩ hok
    have hz : (v == 0) = false := by simpa [beq_eq_false_iff_ne] using hv
    rw [enforceRangeCheck_eq, hz] at hok
    simp only [MAX_AMOUNT_BITS] at hk1
    interval_cases k <;> simp_all
  refine ⟨?_, ?_, ?_, ?_, ?_⟩
  · intro A c i hv hex
    cases hb : c.satisfied A with
    | false => rfl
    | true =>
      have hin := (satisfied_parts A c hb).2.1 i
      exact absurd (inputCheck_range _ _ _ _ _ _ _ _ _ _ _ _ hin) (hfail _ hv hex)
  · intro A c i hv hex
    cases hb : c.satisfied A with
    | false => rfl
    | true =>
      have hout := (satisfied_parts A c hb).2.2.1 i
      exact absurd (outputCheck_range _ _ _ _ _ _ hout) (hfail _ hv hex)
  · decide
  · decide
  · intro v
    simp [enforceRangeCheck]

/-- **C5, witness.**  Concrete instances: an assignment whose first input
amount is `2^248` is rejected, one whose first output amount is `2^248` is
rejected, and a zero flag passes the check for the amount `7`. -/
theorem range_check_248_witness :
    TransactionCircuit.satisfied assetsW
        { aZ with inAmounts := ![(2 : F) ^ 248, 0] } = false ∧
    TransactionCircuit.satisfied assetsW
        { aZ with outAmounts := ![(2 : F) ^ 248, 0] } = false ∧
    enforceRangeCheck 7 true = true := by
  refine ⟨?_, ?_, range_check_248.2.2.2.2 7⟩
  · exact range_check_248.1 assetsW _ 0 (by decide)
      ⟨248, le_refl _, by decide, by decide⟩
  · exact range_check_248.2.1 assetsW _ 0 (by decide)
      ⟨248, le_refl _, by decide, by decide⟩

/-! ## The binding layers (bindings.rs and wasm/mod.rs) -/

/-- `num_bigint`'s `from_str_radix` strips one leading `'+'` before reading
digits (a second `'+'` would fail the digit scan anyway). -/
def stripPlus (cs : List Char) : List Char :=
  match cs with
  | ch :: rest => if ch = '+' then rest else cs
  | [] => cs

/-- The value of a decimal digit list, most significant first. -/
def decFold (cs : List Char) : ℕ :=
  cs.foldl (fun acc ch => acc * 10 + (ch.toNat - 48)) 0

/-- `BigUint::from_str` (decimal): an optional `'+'`, then one or more decimal
digits; anything else is an error. -/
def parseDecCore (cs : List Char) : Option ℕ :=
  let cs := stripPlus cs
  if cs.isEmpty then none
  else if cs.all (fun ch => ch.isDigit) then some (decFold cs)
  else none

/-- The value of a hexadecimal digit, if any (`0-9`, `a-f`, `A-F`). -/
def hexVal? (ch : Char) : Option ℕ :=
  if ch.isDigit then some (ch.toNat - 48)
  else if 'a' ≤ ch ∧ ch ≤ 'f' then some (ch.toNat - 87)
  else if 'A' ≤ ch ∧ ch ≤ 'F' then some (ch.toNat - 55)
  else none

/-- `BigUint::parse_bytes(_, 16)`: an optional `'+'`, then one or more hex
digits. -/
def parseHexCore (cs : List Char) : Option ℕ :=
  let cs := stripPlus cs
  if cs.isEmpty then none
  else if cs.all (fun ch => (hexVal? ch).isSome) then
    some (cs.foldl (fun acc ch => acc * 16 + (hexVal? ch).getD 0) 0)
  else none

/-- `parse_fr` (bindings.rs): `BigUint::from_str` — decimal only — followed by
`Fr::from(BigUint)`, which reduces the integer modulo the field order rather
than rejecting values `≥ fieldOrder`. -/
def parseFr (str : String) : Option F :=
  (parseDecCore str.data).map fun n => (n : F)

/-- `str::trim`: drop whitespace from both ends. -/
def trimChars (cs : List Char) : List Char :=
  ((cs.dropWhile Char.isWhitespace).reverse.dropWhile Char.isWhitespace).reverse

/-- `parse_field_element` (wasm/mod.rs): trim, then parse a `0x`/`0X`-prefixed
string as hex and anything else as decimal; `Fr::from(BigUint)` again reduces
modulo the field order. -/
def parseFieldElement (str : String) : Option F :=
  let s := trimChars str.data
  if s.take 2 = ['0', 'x'] ∨ s.take 2 = ['0', 'X'] then
    (parseHexCore (s.drop 2)).map fun n => (n : F)
  else
    (parseDecCore s).map fun n => (n : F)

/-- `BindingError` (bindings.rs): the error taxonomy of the native bindings.
Payload strings formatted from library error values carry the offending input
instead of the library's display text. -/
inductive BindingError where
  | parseError (msg : String)
  | keyError (msg : String)
  | proofError (msg : String)
  | verifyError (msg : String)
  | serializationError (msg : String)
  | inputError (msg : String)
  | internalError (msg : String)
  deriving DecidableEq

/-- `parse_fr`'s error path as the bindings use it: a failed parse becomes a
`ParseError` naming the offending string. -/
def parseFrE (str : String) : Except BindingError F :=
  match parseFr str with
  | some v => Except.ok v
  | none => Except.error (BindingError.parseError str)

/-- `inputs.iter().map(parse_fr).collect::<Result<Vec<Fr>, _>>()`: parse every
string, stopping at the first failure. -/
def collectFr : List String → Except BindingError (List F)
  | [] => Except.ok []
  | str :: rest => do
    let v ← parseFrE str
    let vs ← collectFr rest
    return v :: vs

/-- `fr_to_string` (bindings.rs): `f.into_bigint().to_string()`, the decimal
string of the canonical representative. -/
def frToString (x : F) : String := toString x.val

/-- `poseidon1` (bindings.rs). -/
def poseidon1 (tb2 : ConstTables) (input : String) : Except BindingError String := do
  let fr ← parseFrE input
  return frToString ((PoseidonOptimized.new_t2 tb2).hash1 fr)

/-- `poseidon2` (bindings.rs): exactly two strings, each a field element. -/
def poseidon2 (tb3 : ConstTables) (inputs : List String) :
    Except BindingError String :=
  if inputs.length ≠ 2 then
    Except.error (BindingError.inputError "poseidon2 requires 2 inputs")
  else do
    let frs ← collectFr inputs
    return frToString ((PoseidonOptimized.new_t3 tb3).hash2 (frs.getD 0 0) (frs.getD 1 0))

/-- `poseidon3` (bindings.rs): exactly three strings. -/
def poseidon3 (tb4 : ConstTables) (inputs : List String) :
    Except BindingError String :=
  if inputs.length ≠ 3 then
    Except.error (BindingError.inputError "poseidon3 requires 3 inputs")
  else do
    let frs ← collectFr inputs
    return frToString
      ((PoseidonOptimized.new_t4 tb4).hash3 (frs.getD 0 0) (frs.getD 1 0) (frs.getD 2 0))

/-- `poseidon4` (bindings.rs): exactly four strings. -/
def poseidon4 (tb5 : ConstTables) (inputs : List String) :
    Except BindingError String :=
  if inputs.length ≠ 4 then
    Except.error (BindingError.inputError "poseidon4 requires 4 inputs")
  else do
    let frs ← collectFr inputs
    return frToString
      ((PoseidonOptimized.new_t5 tb5).hash4 (frs.getD 0 0) (frs.getD 1 0) (frs.getD 2 0)
        (frs.getD 3 0))

/-! ## The sparse Merkle tree (merkle_tree.rs) -/

/-- `Path::calculate_root`: fold the running hash up the path; the running
hash goes on the side whose stored entry it equals. -/
def calculateRoot (hasher : PoseidonOptimized) (leaf : F) (path : List (F × F)) : F :=
  path.foldl (fun previousHash pr =>
    let previousIsLeft := previousHash == pr.1
    let leftHash := if previousIsLeft then previousHash else pr.1
    let rightHash := if previousIsLeft then pr.2 else previousHash
    hasher.hash2 leftHash rightHash) leaf

/-- `Path::check_membership`: the computed root equals the supplied root. -/
def checkMembership (hasher : PoseidonOptimized) (rootHash leaf : F)
    (path : List (F × F)) : Bool :=
  calculateRoot hasher leaf path == rootHash

/-- `SparseMerkleTree`: stored leaves in insertion order, the cached left
subtrees and default empty hashes per level (embedded as index functions),
and the current root. -/
structure SparseMerkleTree where
  height : ℕ
  leaves : List F
  subtrees : ℕ → F
  emptyHashes : ℕ → F
  root : F

/-- The `empty_hashes` array built by `SparseMerkleTree::new`:
`empty_hashes[0] = empty_leaf`, `empty_hashes[i] = hash2(prev, prev)`. -/
def emptyHashChain (hasher : PoseidonOptimized) (emptyLeaf : F) : ℕ → F
  | 0 => emptyLeaf
  | i + 1 =>
    let prev := emptyHashChain hasher emptyLeaf i
    hasher.hash2 prev prev

/-- `SparseMerkleTree::new_empty` (also the state `new` starts from): empty
leaf list, subtrees initialized to the empty hashes, root
`empty_hashes[N-1]`. -/
def SparseMerkleTree.newEmpty (hasher : PoseidonOptimized) (emptyLeaf : F)
    (height : ℕ) : SparseMerkleTree :=
  { height := height, leaves := [],
    subtrees := emptyHashChain hasher emptyLeaf,
    emptyHashes := emptyHashChain hasher emptyLeaf,
    root := emptyHashChain hasher emptyLeaf (height - 1) }

/-- One level of the bottom-up insertion walk shared by `insert_pair` and the
rebuild loop of `generate_membership_proof`: at level `i`, a left child is
cached into `subtrees[i]` and hashed with `empty_hashes[i]`, a right child is
hashed with the cached left subtree; the pair index halves. -/
def climbStep (hasher : PoseidonOptimized) (emptyHashes : ℕ → F)
    (st : (ℕ → F) × F × ℕ) (i : ℕ) : (ℕ → F) × F × ℕ :=
  let subtrees := st.1
  let currentLevelHash := st.2.1
  let currentIndex := st.2.2
  if currentIndex % 2 = 0 then
    (Function.update subtrees i currentLevelHash,
     hasher.hash2 currentLevelHash (emptyHashes i),
     currentIndex / 2)
  else
    (subtrees, hasher.hash2 (subtrees i) currentLevelHash, currentIndex / 2)

/-- The insertion walk over a range of levels. -/
def climb (hasher : PoseidonOptimized) (emptyHashes : ℕ → F) (subtrees : ℕ → F)
    (currentLevelHash : F) (currentIndex : ℕ) (levels : List ℕ) :
    (ℕ → F) × F × ℕ :=
  levels.foldl (climbStep hasher emptyHashes) (subtrees, currentLevelHash, currentIndex)

/-- `SparseMerkleTree::insert_pair`: fail when full, append both leaves, hash
the pair, and walk levels `1..N-1` updating the subtree cache; the final hash
is the new root. -/
def SparseMerkleTree.insertPair (t : SparseMerkleTree) (leaf1 leaf2 : F)
    (hasher : PoseidonOptimized) : Option SparseMerkleTree :=
  if t.leaves.length + 2 > 2 ^ t.height then none
  else
    let leaves := t.leaves ++ [leaf1, leaf2]
    let currentIndex := (leaves.length - 2) / 2
    let currentLevelHash := hasher.hash2 leaf1 leaf2
    let res := climb hasher t.emptyHashes t.subtrees currentLevelHash currentIndex
      (List.range' 1 (t.height - 1))
    some { t with leaves := leaves, subtrees := res.1, root := res.2.1 }

/-- Sequential pair insertion (the loop in `SparseMerkleTree::new` /
`insert_batch`). -/
def SparseMerkleTree.insertPairs (t : SparseMerkleTree) (ps : List (F × F))
    (hasher : PoseidonOptimized) : Option SparseMerkleTree :=
  ps.foldlM (fun acc pr => acc.insertPair pr.1 pr.2 hasher) t

/-- `SparseMerkleTree::new`: start from the empty state and insert the given
leaf pairs in order. -/
def SparseMerkleTree.new (leafPairs : List (F × F)) (hasher : PoseidonOptimized)
    (emptyLeaf : F) (height : ℕ) : Option SparseMerkleTree :=
  (SparseMerkleTree.newEmpty hasher emptyLeaf height).insertPairs leafPairs hasher

/-- The level-0 pair hashes recomputed by `generate_membership_proof`: each
stored pair of leaves hashed together (an absent right leaf defaults to
`empty_hashes[0]`). -/
def SparseMerkleTree.pairHashList (t : SparseMerkleTree)
    (hasher : PoseidonOptimized) : List F :=
  (List.range ((t.leaves.length + 1) / 2)).map fun pairIdx =>
    let left := t.leaves.getD (pairIdx * 2) 0
    let right := if pairIdx * 2 + 1 < t.leaves.length then
        t.leaves.getD (pairIdx * 2 + 1) 0
      else t.emptyHashes 0
    hasher.hash2 left right

/-- One pair of the per-level replay loop of `generate_membership_proof`:
walk the pair's hash up through levels `1..level-1` (updating this replay's
own copy of the subtree cache), and record the resulting hash at the pair's
horizontal position at `level - 1`, growing the table with empty hashes as
needed. -/
def simStep (hasher : PoseidonOptimized) (emptyHashes : ℕ → F) (level : ℕ)
    (st : (ℕ → F) × List F) (pr : ℕ × F) : (ℕ → F) × List F :=
  let levelSubtrees := st.1
  let childHashes := st.2
  let pairIdx := pr.1
  let res := climb hasher emptyHashes levelSubtrees pr.2 pairIdx
    (List.range' 1 (level - 1))
  let levelPos := pairIdx >>> (level - 1)
  let childHashes := if childHashes.length ≤ levelPos then
      childHashes ++ List.replicate (levelPos + 1 - childHashes.length)
        (emptyHashes level)
    else childHashes
  (res.1, childHashes.set levelPos res.2.1)

/-- The per-level child-hash table of `generate_membership_proof`: for a fixed
`level`, replay every insertion through levels `1..level-1` (with its own copy
of the subtree cache) and record, per horizontal position, the hash each pair
contributes at `level − 1` before it is combined with its sibling.  Later
pairs overwrite the position they share with earlier pairs. -/
def SparseMerkleTree.childHashesAt (t : SparseMerkleTree)
    (hasher : PoseidonOptimized) (level : ℕ) : List F :=
  ((t.pairHashList hasher).enum.foldl (simStep hasher t.emptyHashes level)
    (t.emptyHashes, ([] : List F))).2

/-- One level of the sibling-extraction loop of `generate_membership_proof`:
choose the sibling from the rebuilt child-hash table (falling back to the
empty hash or to the cached subtree), store the pair with the running hash on
its own side, and advance the running hash and index. -/
def SparseMerkleTree.extractStep (t : SparseMerkleTree)
    (hasher : PoseidonOptimized) (st : List (F × F) × F × ℕ) (level : ℕ) :
    List (F × F) × F × ℕ :=
  let acc := st.1
  let currentHash := st.2.1
  let currentIndex := st.2.2
  let childHashes := t.childHashesAt hasher level
  let sibling :=
    if currentIndex % 2 = 0 then
      ((childHashes.get? (currentIndex + 1)).getD (t.emptyHashes level))
    else if currentIndex > 0 then
      ((childHashes.get? (currentIndex - 1)).getD (t.subtrees level))
    else t.subtrees level
  let pathElem := if currentIndex % 2 = 0 then (currentHash, sibling)
    else (sibling, currentHash)
  let nextHash := hasher.hash2
    (if currentIndex % 2 = 0 then currentHash else sibling)
    (if currentIndex % 2 = 0 then sibling else currentHash)
  (acc ++ [pathElem], nextHash, currentIndex / 2)

/-- `SparseMerkleTree::generate_membership_proof`: fail when the index is out
of bounds; otherwise the path is the leaf pair at level 0 followed by the
extracted `(left, right)` sibling pairs of levels `1..N-1`. -/
def SparseMerkleTree.generateMembershipProof (t : SparseMerkleTree)
    (tb : ConstTables) (index : ℕ) : Option (List (F × F)) :=
  if index ≥ t.leaves.length then none
  else
    let hasher := PoseidonOptimized.new_t3 tb
    let pairIndex := index / 2
    let leafLeft := t.leaves.getD (pairIndex * 2) 0
    let leafRight := if pairIndex * 2 + 1 < t.leaves.length then
        t.leaves.getD (pairIndex * 2 + 1) 0
      else t.emptyHashes 0
    let currentHash := hasher.hash2 leafLeft leafRight
    let res := (List.range' 1 (t.height - 1)).foldl (t.extractStep hasher)
      ([], currentHash, pairIndex)
    some ((leafLeft, leafRight) :: res.1)

/-! ### Correctness of the paired-insertion tree

`nodeVal l q` is the hash of the node at horizontal position `q`, `l` levels
above the pair-hash level, of the tree whose filled pair hashes are `phs` —
with every absent right child replaced by the empty hash of its level.  The
incremental insertion walk, the proof-generation replay and the extracted
sibling paths are all reduced to this one function. -/

/-- The node at level `l` (above the pair hashes), position `q`, of the tree
with pair-hash list `phs` and per-level empty hashes `E`. -/
def nodeVal (hasher : PoseidonOptimized) (E : ℕ → F) (phs : List F) :
    ℕ → ℕ → F
  | 0, q => phs.getD q 0
  | l + 1, q =>
    if (2 * q + 1) * 2 ^ l < phs.length then
      hasher.hash2 (nodeVal hasher E phs l (2 * q))
        (nodeVal hasher E phs l (2 * q + 1))
    else
      hasher.hash2 (nodeVal hasher E phs l (2 * q)) (E (l + 1))

/-- Nodes whose subtree is already full are unaffected by appending further
pair hashes. -/
theorem nodeVal_append (hasher : PoseidonOptimized) (E : ℕ → F) (phs tail : List F) :
    ∀ (l q : ℕ), (q + 1) * 2 ^ l ≤ phs.length →
      nodeVal hasher E (phs ++ tail) l q = nodeVal hasher E phs l q := by
  intro l
  induction l with
  | zero =>
    intro q hq
    simp only [nodeVal]
    rw [List.getD_append]
    simpa using hq
  | succ l ih =>
    intro q hq
    have hlen : phs.length ≤ (phs ++ tail).length := by
      simp [List.length_append]
    have hq' : (2 * q + 2) * 2 ^ l ≤ phs.length := by
      calc (2 * q + 2) * 2 ^ l = (q + 1) * 2 ^ (l + 1) := by ring
      _ ≤ phs.length := hq
    have htrue : (2 * q + 1) * 2 ^ l < phs.length := by
      have : (2 * q + 1) * 2 ^ l < (2 * q + 2) * 2 ^ l := by
        have hp : 0 < 2 ^ l := Nat.pos_pow_of_pos l (by norm_num)
        nlinarith
      exact lt_of_lt_of_le this hq'
    have htrue' : (2 * q + 1) * 2 ^ l < (phs ++ tail).length :=
      lt_of_lt_of_le htrue hlen
    simp only [nodeVal, if_pos htrue, if_pos htrue']
    rw [ih (2 * q) (le_of_lt htrue), ih (2 * q + 1) hq']

/-- Nodes whose subtree is already full are computed identically from a
prefix. -/
theorem nodeVal_take (hasher : PoseidonOptimized) (E : ℕ → F) (phs : List F)
    (n l q : ℕ) (hq : (q + 1) * 2 ^ l ≤ n) (hn : n ≤ phs.length) :
    nodeVal hasher E (phs.take n) l q = nodeVal hasher E phs l q := by
  have h := nodeVal_append hasher E (phs.take n) (phs.drop n) l q
    (by simpa [List.length_take, Nat.min_eq_left hn] using hq)
  rw [List.take_append_drop] at h
  exact h.symm

theorem lt_succ_div_mul (k P : ℕ) (hP : 0 < P) : k < (k / P + 1) * P := by
  calc k = P * (k / P) + k % P := (Nat.div_add_mod k P).symm
  _ < P * (k / P) + P := Nat.add_lt_add_left (Nat.mod_lt k hP) _
  _ = (k / P + 1) * P := by ring

/-- The behaviour of the shared insertion walk from a freshly hashed pair at
index `k` (so the current pair-hash list `phs` has `k + 1` entries), provided
the cached left subtree is correct at every level where the walk turns
right: the running hash climbs through the `nodeVal` nodes above position
`k`, and the cache is updated exactly at the levels where position `k` is a
left child. -/
theorem climb_spec (hasher : PoseidonOptimized) (E : ℕ → F) (S0 : ℕ → F)
    (phs : List F) (k : ℕ) (hlen : phs.length = k + 1) :
    ∀ m : ℕ,
      (∀ l, 1 ≤ l → l ≤ m → (k / 2 ^ (l - 1)) % 2 = 1 →
        S0 l = nodeVal hasher E phs (l - 1) (k / 2 ^ (l - 1) - 1)) →
      (climb hasher E S0 (nodeVal hasher E phs 0 k) k (List.range' 1 m)).2.1
          = nodeVal hasher E phs m (k / 2 ^ m) ∧
      (climb hasher E S0 (nodeVal hasher E phs 0 k) k (List.range' 1 m)).2.2
          = k / 2 ^ m ∧
      ∀ l, (climb hasher E S0 (nodeVal hasher E phs 0 k) k (List.range' 1 m)).1 l
          = if 1 ≤ l ∧ l ≤ m ∧ (k / 2 ^ (l - 1)) % 2 = 0 then
              nodeVal hasher E phs (l - 1) (k / 2 ^ (l - 1))
            else S0 l := by
  intro m
  induction m with
  | zero =>
    intro _
    refine ⟨by simp [climb], by simp [climb], fun l => ?_⟩
    rw [if_neg (by rintro ⟨h1, h2, -⟩; omega)]
    simp [climb]
  | succ m ih =>
    intro hsub
    obtain ⟨ih1, ih2, ih3⟩ := ih fun l h1 h2 => hsub l h1 (Nat.le_succ_of_le h2)
    have hrange : List.range' 1 (m + 1) = List.range' 1 m ++ [m + 1] := by
      rw [List.range'_concat]
      simp [Nat.add_comm]
    have hfold : climb hasher E S0 (nodeVal hasher E phs 0 k) k (List.range' 1 (m + 1))
        = climbStep hasher E
            (climb hasher E S0 (nodeVal hasher E phs 0 k) k (List.range' 1 m))
            (m + 1) := by
      rw [hrange]
      simp [climb, List.foldl_append]
    set res := climb hasher E S0 (nodeVal hasher E phs 0 k) k (List.range' 1 m)
      with hres
    set pos := k / 2 ^ m with hpos
    have hdivq : k / 2 ^ (m + 1) = pos / 2 := by
      rw [pow_succ, ← Nat.div_div_eq_div_mul]
    rcases Nat.even_or_odd pos with hpar | hpar
    · -- position `k` is a left child at level `m + 1`
      have hpe : pos % 2 = 0 := Nat.even_iff.mp hpar
      have hstep : climbStep hasher E res (m + 1)
          = (Function.update res.1 (m + 1) res.2.1,
             hasher.hash2 res.2.1 (E (m + 1)), res.2.2 / 2) := by
        simp only [climbStep, ih2, ← hpos, hpe]
        simp
      have h2q : 2 * (pos / 2) = pos := by omega
      have hlt : k < (pos + 1) * 2 ^ m := lt_succ_div_mul k (2 ^ m) (Nat.pos_pow_of_pos m (by norm_num))
      have hnode : nodeVal hasher E phs (m + 1) (pos / 2)
          = hasher.hash2 (nodeVal hasher E phs m pos) (E (m + 1)) := by
        have hcondF : ¬ ((2 * (pos / 2) + 1) * 2 ^ m < phs.length) := by
          rw [h2q, hlen]
          exact Nat.not_lt.mpr hlt
        simp only [nodeVal]
        rw [if_neg hcondF, h2q]
      refine ⟨?_, ?_, ?_⟩
      · rw [hfold, hstep]
        simp only [hdivq, hnode, ih1]
      · rw [hfold, hstep]
        simp only [ih2, hdivq, ← hpos]
      · intro l
        rw [hfold, hstep]
        dsimp only
        rcases eq_or_ne l (m + 1) with hl | hl
        · subst hl
          rw [Function.update_same, ih1,
            if_pos ⟨Nat.le_add_left 1 m, le_refl _, by simpa using hpe⟩]
          simp [hpos]
        · rw [Function.update_noteq hl, ih3 l]
          have hcond : (1 ≤ l ∧ l ≤ m + 1 ∧ (k / 2 ^ (l - 1)) % 2 = 0)
              ↔ (1 ≤ l ∧ l ≤ m ∧ (k / 2 ^ (l - 1)) % 2 = 0) := by
            constructor <;> rintro ⟨a, b, c⟩ <;> exact ⟨a, by omega, c⟩
          rw [if_congr hcond.symm rfl rfl]
    · -- position `k` is a right child at level `m + 1`
      have hpo : pos % 2 = 1 := Nat.odd_iff.mp hpar
      have hstep : climbStep hasher E res (m + 1)
          = (res.1, hasher.hash2 (res.1 (m + 1)) res.2.1, res.2.2 / 2) := by
        simp only [climbStep, ih2, ← hpos]
        rw [if_neg (by omega)]
      have hS : res.1 (m + 1) = nodeVal hasher E phs m (pos - 1) := by
        rw [ih3 (m + 1), if_neg (by rintro ⟨-, h2, -⟩; omega)]
        simpa using hsub (m + 1) (Nat.le_add_left 1 m) (le_refl _) (by simpa using hpo)
      have h2q : 2 * (pos / 2) = pos - 1 := by omega
      have hle : pos * 2 ^ m ≤ k := by
        rw [hpos]
        exact Nat.div_mul_le_self k (2 ^ m)
      have hnode : nodeVal hasher E phs (m + 1) (pos / 2)
          = hasher.hash2 (nodeVal hasher E phs m (pos - 1))
              (nodeVal hasher E phs m pos) := by
        have hcondT : (2 * (pos / 2) + 1) * 2 ^ m < phs.length := by
          rw [h2q, hlen]
          calc (pos - 1 + 1) * 2 ^ m = pos * 2 ^ m := by
                congr 1
                omega
          _ ≤ k := hle
          _ < k + 1 := Nat.lt_succ_self k
        have hsucc : pos - 1 + 1 = pos := by omega
        simp only [nodeVal]
        rw [if_pos hcondT, h2q, hsucc]
      refine ⟨?_, ?_, ?_⟩
      · rw [hfold, hstep]
        simp only [hdivq, hnode, ih1, hS]
      · rw [hfold, hstep]
        simp only [ih2, hdivq, ← hpos]
      · intro l
        rw [hfold, hstep]
        dsimp only
        rcases eq_or_ne l (m + 1) with hl | hl
        · subst hl
          rw [ih3 (m + 1), if_neg (by rintro ⟨-, h2, -⟩; omega),
            if_neg (by rintro ⟨-, -, c⟩; simp only [Nat.add_sub_cancel] at c; omega)]
        · rw [ih3 l]
          have hcond : (1 ≤ l ∧ l ≤ m + 1 ∧ (k / 2 ^ (l - 1)) % 2 = 0)
              ↔ (1 ≤ l ∧ l ≤ m ∧ (k / 2 ^ (l - 1)) % 2 = 0) := by
            constructor <;> rintro ⟨a, b, c⟩ <;> exact ⟨a, by omega, c⟩
          rw [if_congr hcond.symm rfl rfl]

/-- The leaf list laid down by successive `insert_pair` calls. -/
def flattenPairs : List (F × F) → List F
  | [] => []
  | pr :: rest => pr.1 :: pr.2 :: flattenPairs rest

/-- The level-0 hash of one stored pair. -/
def pairHashOf (hasher : PoseidonOptimized) (pr : F × F) : F :=
  hasher.hash2 pr.1 pr.2

theorem flattenPairs_length (ps : List (F × F)) :
    (flattenPairs ps).length = 2 * ps.length := by
  induction ps with
  | nil => rfl
  | cons pr rest ih => simp [flattenPairs, ih]; ring

theorem flattenPairs_append (ps : List (F × F)) (pr : F × F) :
    flattenPairs (ps ++ [pr]) = flattenPairs ps ++ [pr.1, pr.2] := by
  induction ps with
  | nil => rfl
  | cons q rest ih => simp [flattenPairs, ih]

theorem flattenPairs_getD (ps : List (F × F)) :
    ∀ p, p < ps.length →
      (flattenPairs ps).getD (p * 2) 0 = (ps.getD p (0, 0)).1 ∧
      (flattenPairs ps).getD (p * 2 + 1) 0 = (ps.getD p (0, 0)).2 := by
  induction ps with
  | nil => intro p hp; simp at hp
  | cons pr rest ih =>
    intro p hp
    cases p with
    | zero => simp [flattenPairs]
    | succ p =>
      have hstep : (p + 1) * 2 = p * 2 + 1 + 1 := by ring
      simp only [flattenPairs, hstep, List.getD_cons_succ, List.length_cons] at *
      exact ih p (by omega)

/-- The part of the incremental even part that survives one more insertion:
if the next pair's position at some level is odd, the even part of the
previous last position is exactly the left sibling's position. -/
theorem evenPart_pred (k P : ℕ) (hP : 0 < P) (hodd : (k / P) % 2 = 1) :
    (k - 1) / P - ((k - 1) / P) % 2 = k / P - 1 := by
  have hk1 : 1 ≤ k := by
    rcases Nat.eq_zero_or_pos k with rfl | h
    · simp at hodd
    · exact h
  have hdiv := Nat.succ_div (k - 1) P
  rw [show k - 1 + 1 = k from by omega] at hdiv
  by_cases hd : P ∣ k
  · rw [if_pos hd] at hdiv
    omega
  · rw [if_neg hd] at hdiv
    omega

/-- The state invariant of a tree built by `insert_pair` insertions of the
pair list `ps`: the stored fields, the capacity bound, the cached subtrees
(as `nodeVal` nodes at the even part of the last insertion's position), and
the root. -/
def TreeInv (hasher : PoseidonOptimized) (emptyLeaf : F) (height : ℕ)
    (ps : List (F × F)) (t : SparseMerkleTree) : Prop :=
  t.height = height ∧
  t.emptyHashes = emptyHashChain hasher emptyLeaf ∧
  t.leaves = flattenPairs ps ∧
  2 * ps.length ≤ 2 ^ height ∧
  (ps ≠ [] → ∀ l, 1 ≤ l → l ≤ height - 1 →
    t.subtrees l = nodeVal hasher (emptyHashChain hasher emptyLeaf)
      (ps.map (pairHashOf hasher)) (l - 1)
      ((ps.length - 1) / 2 ^ (l - 1) - ((ps.length - 1) / 2 ^ (l - 1)) % 2)) ∧
  (ps ≠ [] → t.root = nodeVal hasher (emptyHashChain hasher emptyLeaf)
      (ps.map (pairHashOf hasher)) (height - 1) 0)

/-- The hypothesis `climb_spec` needs about the cache, for the next insertion
at pair index `ps.length`, holds in any tree satisfying `TreeInv`. -/
theorem treeInv_climb_hyp (hasher : PoseidonOptimized) (emptyLeaf : F)
    (height : ℕ) (ps : List (F × F)) (t : SparseMerkleTree)
    (hinv : TreeInv hasher emptyLeaf height ps t) (pr : F × F) :
    ∀ l, 1 ≤ l → l ≤ height - 1 →
      (ps.length / 2 ^ (l - 1)) % 2 = 1 →
      t.subtrees l = nodeVal hasher (emptyHashChain hasher emptyLeaf)
        ((ps ++ [pr]).map (pairHashOf hasher)) (l - 1)
        (ps.length / 2 ^ (l - 1) - 1) := by
  intro l hl1 hl2 hodd
  obtain ⟨-, -, -, -, hsub, -⟩ := hinv
  have hP : 0 < 2 ^ (l - 1) := Nat.pos_pow_of_pos _ (by norm_num)
  have hne : ps ≠ [] := by
    rintro rfl
    simp at hodd
  have hmul : (ps.length / 2 ^ (l - 1)) * 2 ^ (l - 1) ≤ ps.length :=
    Nat.div_mul_le_self _ _
  have hpos1 : 1 ≤ ps.length / 2 ^ (l - 1) := by
    rcases Nat.eq_zero_or_pos (ps.length / 2 ^ (l - 1)) with h0 | h
    · rw [h0] at hodd
      simp at hodd
    · exact h
  rw [hsub hne l hl1 hl2, evenPart_pred ps.length (2 ^ (l - 1)) hP hodd]
  rw [List.map_append]
  rw [nodeVal_append]
  have heq : (ps.length / 2 ^ (l - 1) - 1 + 1) = ps.length / 2 ^ (l - 1) := by
    omega
  rw [heq, List.length_map]
  exact hmul

/-- `insert_pair` preserves the tree invariant, extending the pair list. -/
theorem insertPair_inv (hasher : PoseidonOptimized) (emptyLeaf : F)
    (height : ℕ) (ps : List (F × F)) (pr : F × F) (t t' : SparseMerkleTree)
    (hinv : TreeInv hasher emptyLeaf height ps t)
    (hins : t.insertPair pr.1 pr.2 hasher = some t') :
    TreeInv hasher emptyLeaf height (ps ++ [pr]) t' := by
  have hclimbhyp := treeInv_climb_hyp hasher emptyLeaf height ps t hinv pr
  obtain ⟨hh, he, hl, hcap, hsub, hroot⟩ := hinv
  set E := emptyHashChain hasher emptyLeaf with hE
  set k := ps.length with hk
  set phs' := (ps ++ [pr]).map (pairHashOf hasher) with hphs
  have hlen' : phs'.length = k + 1 := by simp [hphs, ← hk]
  have hleavesLen : t.leaves.length = 2 * k := by
    rw [hl, flattenPairs_length]
  unfold SparseMerkleTree.insertPair at hins
  by_cases hfull : t.leaves.length + 2 > 2 ^ t.height
  · rw [if_pos hfull] at hins
    exact absurd hins (by simp)
  rw [if_neg hfull] at hins
  dsimp only at hins
  have hidx : ((t.leaves ++ [pr.1, pr.2]).length - 2) / 2 = k := by
    simp only [List.length_append, List.length_cons, List.length_nil, hleavesLen]
    omega
  rw [hidx, he, hh] at hins
  have ht' := Option.some.inj hins
  subst ht'
  rw [hh, hleavesLen] at hfull
  have hcap2 : 2 * (k + 1) ≤ 2 ^ height := by omega
  have hh1 : 1 ≤ height := by
    by_contra hcontra
    have h0 : height = 0 := by omega
    rw [h0] at hcap2
    simp only [pow_zero] at hcap2
    omega
  have hk2 : k + 1 ≤ 2 ^ (height - 1) := by
    have hpow : 2 ^ height = 2 * 2 ^ (height - 1) := by
      conv_lhs => rw [show height = height - 1 + 1 from by omega]
      ring
    omega
  have hstart : nodeVal hasher E phs' 0 k = hasher.hash2 pr.1 pr.2 := by
    simp only [nodeVal, hphs, List.map_append]
    rw [List.getD_append_right _ _ _ _ (by simp [← hk])]
    simp [← hk, pairHashOf]
  have hspec := climb_spec hasher E t.subtrees phs' k hlen' (height - 1) hclimbhyp
  rw [hstart] at hspec
  obtain ⟨hs1, hs2, hs3⟩ := hspec
  have hlen2 : (ps ++ [pr]).length - 1 = k := by simp [← hk]
  have hlen3 : (ps ++ [pr]).length = k + 1 := by simp [← hk]
  refine ⟨rfl, rfl, ?_, ?_, ?_, ?_⟩
  · show t.leaves ++ [pr.1, pr.2] = _
    rw [hl]
    exact (flattenPairs_append ps pr).symm
  · show 2 * (ps ++ [pr]).length ≤ 2 ^ height
    rw [hlen3]
    omega
  · intro _ l hl1 hl2
    show (climb hasher E t.subtrees (hasher.hash2 pr.1 pr.2) k
      (List.range' 1 (height - 1))).1 l = _
    rw [hs3 l, hphs, hlen2]
    by_cases hpar : (k / 2 ^ (l - 1)) % 2 = 0
    · rw [if_pos ⟨hl1, hl2, hpar⟩]
      congr 1
      rw [hpar, Nat.sub_zero]
    · have hone : (k / 2 ^ (l - 1)) % 2 = 1 := by
        rcases Nat.mod_two_eq_zero_or_one (k / 2 ^ (l - 1)) with h | h
        · exact absurd h hpar
        · exact h
      rw [if_neg (by rintro ⟨-, -, c⟩; exact hpar c)]
      rw [hclimbhyp l hl1 hl2 hone, hphs]
      congr 1
      rw [hone]
  · intro _
    show (climb hasher E t.subtrees (hasher.hash2 pr.1 pr.2) k
      (List.range' 1 (height - 1))).2.1 = _
    rw [hs1, hphs]
    congr 1
    exact Nat.div_eq_of_lt (by omega)

/-- The empty tree satisfies the invariant for the empty pair list. -/
theorem newEmpty_inv (hasher : PoseidonOptimized) (emptyLeaf : F) (height : ℕ) :
    TreeInv hasher emptyLeaf height []
      (SparseMerkleTree.newEmpty hasher emptyLeaf height) := by
  refine ⟨rfl, rfl, rfl, by simp, ?_, ?_⟩
  · intro h
    exact absurd rfl h
  · intro h
    exact absurd rfl h

/-- Sequential insertion preserves the invariant, appending the pair list. -/
theorem insertPairs_inv (hasher : PoseidonOptimized) (emptyLeaf : F) (height : ℕ) :
    ∀ (ps qs : List (F × F)) (t t' : SparseMerkleTree),
      TreeInv hasher emptyLeaf height qs t →
      t.insertPairs ps hasher = some t' →
      TreeInv hasher emptyLeaf height (qs ++ ps) t' := by
  intro ps
  induction ps with
  | nil =>
    intro qs t t' hinv hins
    simp only [SparseMerkleTree.insertPairs, List.foldlM_nil] at hins
    obtain rfl := Option.some.inj hins
    simpa using hinv
  | cons pr rest ih =>
    intro qs t t' hinv hins
    simp only [SparseMerkleTree.insertPairs, List.foldlM_cons] at hins
    cases h1 : t.insertPair pr.1 pr.2 hasher with
    | none =>
      rw [h1] at hins
      exact absurd hins (by simp)
    | some t1 =>
      rw [h1] at hins
      have hins2 : t1.insertPairs rest hasher = some t' := hins
      have hinv1 := insertPair_inv hasher emptyLeaf height qs pr t t1 hinv h1
      have hres := ih (qs ++ [pr]) t1 t' hinv1 hins2
      simpa using hres

/-- A tree built by `SparseMerkleTree::new` satisfies the invariant. -/
theorem new_inv (hasher : PoseidonOptimized) (emptyLeaf : F) (height : ℕ)
    (ps : List (F × F)) (t : SparseMerkleTree)
    (h : SparseMerkleTree.new ps hasher emptyLeaf height = some t) :
    TreeInv hasher emptyLeaf height ps t := by
  have hres := insertPairs_inv hasher emptyLeaf height ps [] _ t
    (newEmpty_inv hasher emptyLeaf height) h
  simpa using hres

theorem map_eq_range_map (f : (F × F) → F) (ps : List (F × F)) :
    ps.map f = (List.range ps.length).map fun p => f (ps.getD p (0, 0)) := by
  induction ps with
  | nil => rfl
  | cons pr rest ih =>
    simp only [List.map_cons, List.length_cons, List.range_succ_eq_map,
      List.map_map, List.getD_cons_zero]
    refine congrArg _ ?_
    rw [ih]
    refine List.map_congr_left fun p _ => ?_
    rfl

/-- The pair-hash list recomputed by `generate_membership_proof` equals the
hashes of the stored pairs. -/
theorem pairHashList_eq (hasher : PoseidonOptimized) (emptyLeaf : F)
    (height : ℕ) (ps : List (F × F)) (t : SparseMerkleTree)
    (hinv : TreeInv hasher emptyLeaf height ps t) :
    t.pairHashList hasher = ps.map (pairHashOf hasher) := by
  obtain ⟨-, -, hl, -, -, -⟩ := hinv
  unfold SparseMerkleTree.pairHashList
  rw [hl, flattenPairs_length]
  have hnum : (2 * ps.length + 1) / 2 = ps.length := by omega
  rw [hnum, map_eq_range_map]
  refine List.map_congr_left fun p hp => ?_
  have hplt : p < ps.length := List.mem_range.mp hp
  have hgetd := flattenPairs_getD ps p hplt
  rw [if_pos (by omega)]
  rw [hgetd.1, hgetd.2]
  rfl

/-- A cache holding even-part `nodeVal` nodes satisfies the hypothesis
`climb_spec` needs for the next pair, at index `ps.length`. -/
theorem climb_hyp_of_evenPart (hasher : PoseidonOptimized) (E : ℕ → F)
    (S : ℕ → F) (ps : List (F × F)) (pr : F × F) (bound : ℕ)
    (hS : ∀ l, 1 ≤ l → l ≤ bound →
      S l = nodeVal hasher E (ps.map (pairHashOf hasher)) (l - 1)
        ((ps.length - 1) / 2 ^ (l - 1) - ((ps.length - 1) / 2 ^ (l - 1)) % 2)) :
    ∀ l, 1 ≤ l → l ≤ bound → (ps.length / 2 ^ (l - 1)) % 2 = 1 →
      S l = nodeVal hasher E ((ps ++ [pr]).map (pairHashOf hasher)) (l - 1)
        (ps.length / 2 ^ (l - 1) - 1) := by
  intro l hl1 hl2 hodd
  have hP : 0 < 2 ^ (l - 1) := Nat.pos_pow_of_pos _ (by norm_num)
  have hmul : (ps.length / 2 ^ (l - 1)) * 2 ^ (l - 1) ≤ ps.length :=
    Nat.div_mul_le_self _ _
  rw [hS l hl1 hl2, evenPart_pred ps.length (2 ^ (l - 1)) hP hodd,
    List.map_append, nodeVal_append]
  have hpos1 : 1 ≤ ps.length / 2 ^ (l - 1) := by
    rcases Nat.eq_zero_or_pos (ps.length / 2 ^ (l - 1)) with h0 | h
    · rw [h0] at hodd
      simp at hodd
    · exact h
  have heq : ps.length / 2 ^ (l - 1) - 1 + 1 = ps.length / 2 ^ (l - 1) := by
    omega
  rw [heq, List.length_map]
  exact hmul

/-- After climbing the new pair at index `k`, the cache again holds even-part
`nodeVal` nodes (with respect to the extended pair list). -/
theorem climb_subtrees_evenPart (hasher : PoseidonOptimized) (E : ℕ → F)
    (S0 : ℕ → F) (phs : List F) (k m : ℕ) (hlen : phs.length = k + 1)
    (hsub : ∀ l, 1 ≤ l → l ≤ m → (k / 2 ^ (l - 1)) % 2 = 1 →
      S0 l = nodeVal hasher E phs (l - 1) (k / 2 ^ (l - 1) - 1)) :
    ∀ l, 1 ≤ l → l ≤ m →
      (climb hasher E S0 (nodeVal hasher E phs 0 k) k (List.range' 1 m)).1 l
        = nodeVal hasher E phs (l - 1)
            (k / 2 ^ (l - 1) - (k / 2 ^ (l - 1)) % 2) := by
  intro l hl1 hl2
  obtain ⟨-, -, hs3⟩ := climb_spec hasher E S0 phs k hlen m hsub
  rw [hs3 l]
  by_cases hpar : (k / 2 ^ (l - 1)) % 2 = 0
  · rw [if_pos ⟨hl1, hl2, hpar⟩, hpar, Nat.sub_zero]
  · have hone : (k / 2 ^ (l - 1)) % 2 = 1 := by
      rcases Nat.mod_two_eq_zero_or_one (k / 2 ^ (l - 1)) with h | h
      · exact absurd h hpar
      · exact h
    rw [if_neg (by rintro ⟨-, -, c⟩; exact hpar c), hsub l hl1 hl2 hone, hone]

theorem set_append_len (xs : List F) (e v : F) (n : ℕ) (hn : n = xs.length) :
    (xs ++ [e]).set n v = xs ++ [v] := by
  subst hn
  induction xs with
  | nil => rfl
  | cons x rest ih => simp [List.set, ih]

/-- The pair hash appended for the new last pair is its level-0 node. -/
theorem nodeVal_last (hasher : PoseidonOptimized) (E : ℕ → F)
    (ps : List (F × F)) (pr : F × F) :
    nodeVal hasher E ((ps ++ [pr]).map (pairHashOf hasher)) 0 ps.length
      = pairHashOf hasher pr := by
  simp only [nodeVal, List.map_append]
  rw [List.getD_append_right _ _ _ _ (by simp)]
  simp

/-- The state of the per-level replay of `generate_membership_proof` after
processing every pair: the replay's subtree cache matches the insertion
cache's characterization, and the recorded table holds exactly the `nodeVal`
nodes at `level - 1` of every occupied position. -/
theorem simFold_spec (hasher : PoseidonOptimized) (E : ℕ → F) (level : ℕ) :
    ∀ ps : List (F × F), ps ≠ [] →
      (∀ l, 1 ≤ l → l ≤ level - 1 →
        ((((ps.map (pairHashOf hasher)).enum).foldl (simStep hasher E level)
            (E, [])).1) l
          = nodeVal hasher E (ps.map (pairHashOf hasher)) (l - 1)
            ((ps.length - 1) / 2 ^ (l - 1)
              - ((ps.length - 1) / 2 ^ (l - 1)) % 2)) ∧
      (((ps.map (pairHashOf hasher)).enum).foldl (simStep hasher E level)
          (E, [])).2
        = (List.range ((ps.length - 1) / 2 ^ (level - 1) + 1)).map
            (nodeVal hasher E (ps.map (pairHashOf hasher)) (level - 1)) := by
  intro ps
  induction ps using List.reverseRecOn with
  | nil => intro h; exact absurd rfl h
  | append_singleton qs pr ih =>
    intro _
    set phs' := (qs ++ [pr]).map (pairHashOf hasher) with hphs'
    set k := qs.length with hk
    have hlen' : phs'.length = k + 1 := by simp [hphs', ← hk]
    have hlast : (qs ++ [pr]).length - 1 = k := by simp [← hk]
    have henum : phs'.enum = (qs.map (pairHashOf hasher)).enum
        ++ [(k, pairHashOf hasher pr)] := by
      rw [hphs', List.map_append, List.enum_append]
      simp [List.enumFrom, ← hk]
    have hfold : phs'.enum.foldl (simStep hasher E level) (E, [])
        = simStep hasher E level
            ((qs.map (pairHashOf hasher)).enum.foldl (simStep hasher E level)
              (E, []))
            (k, pairHashOf hasher pr) := by
      rw [henum, List.foldl_append]
      rfl
    have hstart : nodeVal hasher E phs' 0 k = pairHashOf hasher pr := by
      rw [hphs', hk]
      exact nodeVal_last hasher E qs pr
    have hP : 0 < 2 ^ (level - 1) := Nat.pos_pow_of_pos _ (by norm_num)
    set st := (qs.map (pairHashOf hasher)).enum.foldl (simStep hasher E level)
      (E, []) with hst
    -- the hypothesis the climb needs about the replay's cache
    have hsub : ∀ l, 1 ≤ l → l ≤ level - 1 → (k / 2 ^ (l - 1)) % 2 = 1 →
        st.1 l = nodeVal hasher E phs' (l - 1) (k / 2 ^ (l - 1) - 1) := by
      rcases eq_or_ne qs [] with hqs0 | hqs
      · intro l _ _ h0
        rw [hk, hqs0] at h0
        simp at h0
      · exact fun l h1 h2 hodd =>
          climb_hyp_of_evenPart hasher E st.1 qs pr (level - 1)
            (fun l h1 h2 => (ih hqs).1 l h1 h2) l h1 h2 hodd
    obtain ⟨hc1, -, -⟩ := climb_spec hasher E st.1 phs' k hlen' (level - 1) hsub
    have hsubs := climb_subtrees_evenPart hasher E st.1 phs' k (level - 1)
      hlen' hsub
    rw [hstart] at hc1 hsubs
    have hshift : k >>> (level - 1) = k / 2 ^ (level - 1) :=
      Nat.shiftRight_eq_div_pow k (level - 1)
    have hstab : ∀ q, q + 1 ≤ k / 2 ^ (level - 1) →
        nodeVal hasher E phs' (level - 1) q
          = nodeVal hasher E (qs.map (pairHashOf hasher)) (level - 1) q := by
      intro q hq
      rw [hphs', List.map_append]
      exact nodeVal_append hasher E (qs.map (pairHashOf hasher)) _ (level - 1) q
        (by rw [List.length_map, ← hk]
            exact (Nat.le_div_iff_mul_le hP).mp hq)
    constructor
    · intro l hl1 hl2
      rw [hfold]
      show (climb hasher E st.1 (pairHashOf hasher pr) k
        (List.range' 1 (level - 1))).1 l = _
      rw [hsubs l hl1 hl2, hlast]
    · rw [hfold]
      show ((if st.2.length ≤ k >>> (level - 1) then
          st.2 ++ List.replicate (k >>> (level - 1) + 1 - st.2.length) (E level)
        else st.2).set (k >>> (level - 1))
          (climb hasher E st.1 (pairHashOf hasher pr) k
            (List.range' 1 (level - 1))).2.1) = _
      rw [hc1, hshift, hlast]
      rcases eq_or_ne qs [] with hqs0 | hqs
      · have hk0 : k = 0 := by rw [hk, hqs0]; rfl
        have hst0 : st = (E, []) := by rw [hst, hqs0]; rfl
        rw [hst0, hk0]
        simp [List.range_succ]
      · obtain ⟨-, ihc⟩ := ih hqs
        have hk1 : 1 ≤ k := by
          rw [hk]
          exact List.length_pos.mpr hqs
        have hdiv := Nat.succ_div (k - 1) (2 ^ (level - 1))
        rw [show k - 1 + 1 = k from by omega] at hdiv
        have hlenold : st.2.length = (k - 1) / 2 ^ (level - 1) + 1 := by
          rw [ihc]
          simp
        by_cases hd : 2 ^ (level - 1) ∣ k
        · -- the new pair opens a fresh position: the table grows by one slot
          rw [if_pos hd] at hdiv
          rw [if_pos (by rw [hlenold]; omega)]
          rw [show k / 2 ^ (level - 1) + 1 - st.2.length = 1 from by
            rw [hlenold]; omega]
          rw [List.replicate_one]
          rw [set_append_len st.2 (E level)
            (nodeVal hasher E phs' (level - 1) (k / 2 ^ (level - 1)))
            (k / 2 ^ (level - 1)) (by rw [hlenold]; omega)]
          rw [List.range_succ, List.map_append]
          rw [← hdiv] at ihc
          congr 1
          rw [ihc]
          exact List.map_congr_left fun q hq =>
            (hstab q (List.mem_range.mp hq)).symm
        · -- the new pair overwrites the last occupied position
          rw [if_neg hd] at hdiv
          rw [Nat.add_zero] at hdiv
          rw [if_neg (by rw [hlenold]; omega)]
          rw [← hdiv] at ihc
          rw [ihc, List.range_succ]
          simp only [List.map_append, List.map_cons, List.map_nil]
          rw [set_append_len
            ((List.range (k / 2 ^ (level - 1))).map
              (nodeVal hasher E (qs.map (pairHashOf hasher)) (level - 1)))
            (nodeVal hasher E (qs.map (pairHashOf hasher)) (level - 1)
              (k / 2 ^ (level - 1)))
            (nodeVal hasher E phs' (level - 1) (k / 2 ^ (level - 1)))
            (k / 2 ^ (level - 1)) (by simp)]
          congr 1
          exact List.map_congr_left fun q hq =>
            (hstab q (List.mem_range.mp hq)).symm

/-- One step of `Path::calculate_root`, named for reuse: the running hash
goes on the side whose stored entry it equals. -/
def calcStep (hasher : PoseidonOptimized) (previousHash : F) (pr : F × F) : F :=
  let previousIsLeft := previousHash == pr.1
  hasher.hash2 (if previousIsLeft then previousHash else pr.1)
    (if previousIsLeft then pr.2 else previousHash)

theorem calculateRoot_eq (hasher : PoseidonOptimized) (leaf : F)
    (path : List (F × F)) :
    calculateRoot hasher leaf path = path.foldl (calcStep hasher) leaf := rfl

/-- When the running hash is one of the stored pair's sides, the
`calculate_root` step hashes the stored pair in order. -/
theorem calcStep_mem (hasher : PoseidonOptimized) (prev : F) (pr : F × F)
    (h : prev = pr.1 ∨ prev = pr.2) :
    calcStep hasher prev pr = hasher.hash2 pr.1 pr.2 := by
  rcases h with h | h
  · subst h
    simp [calcStep]
  · subst h
    by_cases he : pr.2 = pr.1
    · simp [calcStep, he]
    · simp [calcStep, he]

theorem getD_map_pair (g : (F × F) → F) (l : List (F × F)) :
    ∀ n, n < l.length → (l.map g).getD n 0 = g (l.getD n (0, 0)) := by
  induction l with
  | nil => intro n hn; simp at hn
  | cons pr rest ih =>
    intro n hn
    cases n with
    | zero => rfl
    | succ n =>
      simp only [List.map_cons, List.getD_cons_succ]
      exact ih n (by simpa using hn)

theorem nodeVal_zero_getD (hasher : PoseidonOptimized) (E : ℕ → F)
    (ps : List (F × F)) (n : ℕ) (hn : n < ps.length) :
    nodeVal hasher E (ps.map (pairHashOf hasher)) 0 n
      = pairHashOf hasher (ps.getD n (0, 0)) := by
  simp only [nodeVal]
  exact getD_map_pair (pairHashOf hasher) ps n hn

/-- Expanding a node one level up at an even child position whose right
sibling exists. -/
theorem nodeVal_succ_left (hasher : PoseidonOptimized) (E : ℕ → F)
    (phs : List F) (m p : ℕ) (hpe : p % 2 = 0)
    (hcond : (p + 1) * 2 ^ m < phs.length) :
    nodeVal hasher E phs (m + 1) (p / 2)
      = hasher.hash2 (nodeVal hasher E phs m p) (nodeVal hasher E phs m (p + 1)) := by
  have h2q : 2 * (p / 2) = p := by omega
  have hcondT : (2 * (p / 2) + 1) * 2 ^ m < phs.length := by
    rw [h2q]
    exact hcond
  simp only [nodeVal]
  rw [if_pos hcondT, h2q]

/-- Expanding a node one level up at an even child position whose right
sibling is absent: the empty hash fills in. -/
theorem nodeVal_succ_left_empty (hasher : PoseidonOptimized) (E : ℕ → F)
    (phs : List F) (m p : ℕ) (hpe : p % 2 = 0)
    (hcond : ¬ (p + 1) * 2 ^ m < phs.length) :
    nodeVal hasher E phs (m + 1) (p / 2)
      = hasher.hash2 (nodeVal hasher E phs m p) (E (m + 1)) := by
  have h2q : 2 * (p / 2) = p := by omega
  have hcondF : ¬ (2 * (p / 2) + 1) * 2 ^ m < phs.length := by
    rw [h2q]
    exact hcond
  simp only [nodeVal]
  rw [if_neg hcondF, h2q]

/-- Expanding a node one level up at an odd child position. -/
theorem nodeVal_succ_right (hasher : PoseidonOptimized) (E : ℕ → F)
    (phs : List F) (m p : ℕ) (hpo : p % 2 = 1)
    (hcond : p * 2 ^ m < phs.length) :
    nodeVal hasher E phs (m + 1) (p / 2)
      = hasher.hash2 (nodeVal hasher E phs m (p - 1)) (nodeVal hasher E phs m p) := by
  have h2q : 2 * (p / 2) = p - 1 := by omega
  have hs : p - 1 + 1 = p := by omega
  have hcondT : (2 * (p / 2) + 1) * 2 ^ m < phs.length := by
    rw [h2q, hs]
    exact hcond
  simp only [nodeVal]
  rw [if_pos hcondT, h2q, hs]

/-- The sibling-extraction step at an even current index. -/
theorem extractStep_even (t : SparseMerkleTree) (hasher : PoseidonOptimized)
    (st : List (F × F) × F × ℕ) (level : ℕ) (hpe : st.2.2 % 2 = 0) :
    t.extractStep hasher st level
      = (st.1 ++ [(st.2.1,
           ((t.childHashesAt hasher level).get? (st.2.2 + 1)).getD
             (t.emptyHashes level))],
         hasher.hash2 st.2.1
           (((t.childHashesAt hasher level).get? (st.2.2 + 1)).getD
             (t.emptyHashes level)),
         st.2.2 / 2) := by
  simp only [SparseMerkleTree.extractStep, hpe]
  simp

/-- The sibling-extraction step at an odd (hence positive) current index. -/
theorem extractStep_odd (t : SparseMerkleTree) (hasher : PoseidonOptimized)
    (st : List (F × F) × F × ℕ) (level : ℕ) (hpo : st.2.2 % 2 = 1) :
    t.extractStep hasher st level
      = (st.1 ++ [((((t.childHashesAt hasher level).get? (st.2.2 - 1)).getD
             (t.subtrees level)), st.2.1)],
         hasher.hash2
           (((t.childHashesAt hasher level).get? (st.2.2 - 1)).getD
             (t.subtrees level)) st.2.1,
         st.2.2 / 2) := by
  have hpos : 0 < st.2.2 := by omega
  simp only [SparseMerkleTree.extractStep, hpo]
  simp [hpos]

/-- The per-level child-hash table rebuilt by `generate_membership_proof`
holds exactly the `nodeVal` nodes of the occupied positions at the level
below. -/
theorem childHashesAt_eq (hasher : PoseidonOptimized) (emptyLeaf : F)
    (height : ℕ) (ps : List (F × F)) (t : SparseMerkleTree)
    (hinv : TreeInv hasher emptyLeaf height ps t) (hne : ps ≠ [])
    (level : ℕ) :
    t.childHashesAt hasher level
      = (List.range ((ps.length - 1) / 2 ^ (level - 1) + 1)).map
          (nodeVal hasher (emptyHashChain hasher emptyLeaf)
            (ps.map (pairHashOf hasher)) (level - 1)) := by
  have he := hinv.2.1
  unfold SparseMerkleTree.childHashesAt
  rw [pairHashList_eq hasher emptyLeaf height ps t hinv, he]
  exact (simFold_spec hasher (emptyHashChain hasher emptyLeaf) level ps hne).2

/-- The sibling-extraction loop of `generate_membership_proof`, started from
the leaf pair of index `i2`: after `m` levels the running hash and index sit
at the `nodeVal` node above position `i2`, and folding `calculate_root`'s
step through the extracted pairs reproduces that node. -/
theorem extract_spec (hasher : PoseidonOptimized) (emptyLeaf : F) (height : ℕ)
    (ps : List (F × F)) (t : SparseMerkleTree)
    (hinv : TreeInv hasher emptyLeaf height ps t) (hne : ps ≠ [])
    (i2 : ℕ) (hi2 : i2 < ps.length) :
    ∀ m : ℕ,
      ((List.range' 1 m).foldl (t.extractStep hasher)
          ([], nodeVal hasher (emptyHashChain hasher emptyLeaf)
            (ps.map (pairHashOf hasher)) 0 i2, i2)).2.1
        = nodeVal hasher (emptyHashChain hasher emptyLeaf)
            (ps.map (pairHashOf hasher)) m (i2 / 2 ^ m) ∧
      ((List.range' 1 m).foldl (t.extractStep hasher)
          ([], nodeVal hasher (emptyHashChain hasher emptyLeaf)
            (ps.map (pairHashOf hasher)) 0 i2, i2)).2.2 = i2 / 2 ^ m ∧
      ((List.range' 1 m).foldl (t.extractStep hasher)
          ([], nodeVal hasher (emptyHashChain hasher emptyLeaf)
            (ps.map (pairHashOf hasher)) 0 i2, i2)).1.foldl (calcStep hasher)
          (nodeVal hasher (emptyHashChain hasher emptyLeaf)
            (ps.map (pairHashOf hasher)) 0 i2)
        = nodeVal hasher (emptyHashChain hasher emptyLeaf)
            (ps.map (pairHashOf hasher)) m (i2 / 2 ^ m) := by
  set E := emptyHashChain hasher emptyLeaf with hE
  set phs := ps.map (pairHashOf hasher) with hphs
  set k := ps.length with hk
  have hklen : phs.length = k := by rw [hphs, List.length_map, hk]
  have hk1 : 1 ≤ k := by
    rw [hk]
    exact List.length_pos.mpr hne
  intro m
  induction m with
  | zero =>
    refine ⟨?_, ?_, ?_⟩ <;> simp [pow_zero, Nat.div_one]
  | succ m ih =>
    obtain ⟨ih1, ih2, ih3⟩ := ih
    have hrange : List.range' 1 (m + 1) = List.range' 1 m ++ [m + 1] := by
      rw [List.range'_concat]
      simp [Nat.add_comm]
    have hfold : (List.range' 1 (m + 1)).foldl (t.extractStep hasher)
        ([], nodeVal hasher E phs 0 i2, i2)
        = t.extractStep hasher
            ((List.range' 1 m).foldl (t.extractStep hasher)
              ([], nodeVal hasher E phs 0 i2, i2)) (m + 1) := by
      rw [hrange, List.foldl_append]
      rfl
    set res := (List.range' 1 m).foldl (t.extractStep hasher)
      ([], nodeVal hasher E phs 0 i2, i2) with hres
    have hch := childHashesAt_eq hasher emptyLeaf height ps t hinv hne (m + 1)
    rw [Nat.add_sub_cancel] at hch
    rw [← hE, ← hphs, ← hk] at hch
    have hPm : 0 < 2 ^ m := Nat.pos_pow_of_pos _ (by norm_num)
    have hple : i2 / 2 ^ m ≤ (k - 1) / 2 ^ m := Nat.div_le_div_right (by omega)
    have hdd : i2 / 2 ^ m / 2 = i2 / 2 ^ (m + 1) := by
      rw [Nat.div_div_eq_div_mul, pow_succ]
    by_cases hpe : (i2 / 2 ^ m) % 2 = 0
    · by_cases hlt : i2 / 2 ^ m + 1 ≤ (k - 1) / 2 ^ m
      · -- even position with an occupied right sibling
        have hget : (t.childHashesAt hasher (m + 1)).get? (i2 / 2 ^ m + 1)
            = some (nodeVal hasher E phs m (i2 / 2 ^ m + 1)) := by
          rw [hch, List.get?_map, List.get?_range (by omega)]
          rfl
        have hcond : (i2 / 2 ^ m + 1) * 2 ^ m < phs.length := by
          rw [hklen]
          have := (Nat.le_div_iff_mul_le hPm).mp hlt
          omega
        have hstep := extractStep_even t hasher res (m + 1) (by rw [ih2]; exact hpe)
        rw [ih2, ih1, hget, Option.getD_some] at hstep
        have hnode := nodeVal_succ_left hasher E phs m (i2 / 2 ^ m) hpe hcond
        refine ⟨?_, ?_, ?_⟩
        · rw [hfold, hstep]
          dsimp only
          rw [← hdd]
          exact hnode.symm
        · rw [hfold, hstep]
          dsimp only
          exact hdd
        · rw [hfold, hstep]
          dsimp only
          rw [List.foldl_append, ih3]
          simp only [List.foldl_cons, List.foldl_nil]
          rw [calcStep_mem hasher (nodeVal hasher E phs m (i2 / 2 ^ m))
            (nodeVal hasher E phs m (i2 / 2 ^ m),
             nodeVal hasher E phs m (i2 / 2 ^ m + 1)) (Or.inl rfl)]
          dsimp only
          rw [← hdd]
          exact hnode.symm
      · -- even position at the frontier: the sibling defaults to the empty hash
        have hgetn : (t.childHashesAt hasher (m + 1)).get? (i2 / 2 ^ m + 1)
            = none := by
          rw [hch]
          apply List.get?_eq_none.mpr
          rw [List.length_map, List.length_range]
          omega
        have hcond : ¬ (i2 / 2 ^ m + 1) * 2 ^ m < phs.length := by
          rw [hklen]
          intro hcon
          exact hlt ((Nat.le_div_iff_mul_le hPm).mpr (by omega))
        have hstep := extractStep_even t hasher res (m + 1) (by rw [ih2]; exact hpe)
        rw [ih2, ih1, hgetn, Option.getD_none, hinv.2.1, ← hE] at hstep
        have hnode := nodeVal_succ_left_empty hasher E phs m (i2 / 2 ^ m) hpe hcond
        refine ⟨?_, ?_, ?_⟩
        · rw [hfold, hstep]
          dsimp only
          rw [← hdd]
          exact hnode.symm
        · rw [hfold, hstep]
          dsimp only
          exact hdd
        · rw [hfold, hstep]
          dsimp only
          rw [List.foldl_append, ih3]
          simp only [List.foldl_cons, List.foldl_nil]
          rw [calcStep_mem hasher (nodeVal hasher E phs m (i2 / 2 ^ m))
            (nodeVal hasher E phs m (i2 / 2 ^ m), E (m + 1)) (Or.inl rfl)]
          dsimp only
          rw [← hdd]
          exact hnode.symm
    · -- odd position: the left sibling is always occupied
      have hpo : (i2 / 2 ^ m) % 2 = 1 := by omega
      have hget : (t.childHashesAt hasher (m + 1)).get? (i2 / 2 ^ m - 1)
          = some (nodeVal hasher E phs m (i2 / 2 ^ m - 1)) := by
        rw [hch, List.get?_map, List.get?_range (by omega)]
        rfl
      have hcond : (i2 / 2 ^ m) * 2 ^ m < phs.length := by
        rw [hklen]
        exact lt_of_le_of_lt (Nat.div_mul_le_self i2 (2 ^ m)) hi2
      have hstep := extractStep_odd t hasher res (m + 1) (by rw [ih2]; exact hpo)
      rw [ih2, ih1, hget, Option.getD_some] at hstep
      have hnode := nodeVal_succ_right hasher E phs m (i2 / 2 ^ m) hpo hcond
      refine ⟨?_, ?_, ?_⟩
      · rw [hfold, hstep]
        dsimp only
        rw [← hdd]
        exact hnode.symm
      · rw [hfold, hstep]
        dsimp only
        exact hdd
      · rw [hfold, hstep]
        dsimp only
        rw [List.foldl_append, ih3]
        simp only [List.foldl_cons, List.foldl_nil]
        rw [calcStep_mem hasher (nodeVal hasher E phs m (i2 / 2 ^ m))
          (nodeVal hasher E phs m (i2 / 2 ^ m - 1),
           nodeVal hasher E phs m (i2 / 2 ^ m)) (Or.inr rfl)]
        dsimp only
        rw [← hdd]
        exact hnode.symm

/-- Under the capacity bound, every `insert_pair` in the sequence succeeds. -/
theorem insertPairs_total (hasher : PoseidonOptimized) (emptyLeaf : F)
    (height : ℕ) :
    ∀ (ps qs : List (F × F)) (t : SparseMerkleTree),
      TreeInv hasher emptyLeaf height qs t →
      2 * (qs.length + ps.length) ≤ 2 ^ height →
      ∃ t', t.insertPairs ps hasher = some t' := by
  intro ps
  induction ps with
  | nil =>
    intro qs t _ _
    exact ⟨t, rfl⟩
  | cons pr rest ih =>
    intro qs t hinv hcap
    have hlen : t.leaves.length = 2 * qs.length := by
      rw [hinv.2.2.1, flattenPairs_length]
    have hnotfull : ¬ t.leaves.length + 2 > 2 ^ t.height := by
      rw [hinv.1, hlen]
      simp only [List.length_cons] at hcap
      omega
    obtain ⟨t1, ht1⟩ : ∃ t1, t.insertPair pr.1 pr.2 hasher = some t1 := by
      unfold SparseMerkleTree.insertPair
      rw [if_neg hnotfull]
      exact ⟨_, rfl⟩
    have hinv1 := insertPair_inv hasher emptyLeaf height qs pr t t1 hinv ht1
    obtain ⟨t', ht'⟩ := ih (qs ++ [pr]) t1 hinv1 (by
      simp only [List.length_append, List.length_cons, List.length_nil] at hcap ⊢
      omega)
    refine ⟨t', ?_⟩
    simp only [SparseMerkleTree.insertPairs, List.foldlM_cons]
    rw [ht1]
    exact ht'

/-- The membership path generated for any stored leaf folds back to the
tree's root, for a tree satisfying the invariant. -/
theorem generated_path_ok (hasher : PoseidonOptimized) (tb : ConstTables)
    (hhasher : PoseidonOptimized.new_t3 tb = hasher) (emptyLeaf : F)
    (height : ℕ) (ps : List (F × F)) (t : SparseMerkleTree)
    (hinv : TreeInv hasher emptyLeaf height ps t) (i : ℕ)
    (hi : i < t.leaves.length) :
    ∃ path, t.generateMembershipProof tb i = some path ∧
      calculateRoot hasher (t.leaves.getD i 0) path = t.root ∧
      checkMembership hasher t.root (t.leaves.getD i 0) path = true := by
  obtain ⟨hh, he, hl, hcap, hsubinv, hrootinv⟩ := hinv
  have hinv' : TreeInv hasher emptyLeaf height ps t :=
    ⟨hh, he, hl, hcap, hsubinv, hrootinv⟩
  have hlen : t.leaves.length = 2 * ps.length := by
    rw [hl, flattenPairs_length]
  have hne : ps ≠ [] := by
    intro h
    rw [h] at hlen
    simp only [List.length_nil, Nat.mul_zero] at hlen
    omega
  have hk1 : 1 ≤ ps.length := List.length_pos.mpr hne
  have hi2 : i / 2 < ps.length := by omega
  have h21 : i / 2 * 2 + 1 < t.leaves.length := by omega
  have hh1 : 1 ≤ height := by
    by_contra hcontra
    have h0 : height = 0 := by omega
    rw [h0] at hcap
    simp only [pow_zero] at hcap
    omega
  have hk2 : ps.length ≤ 2 ^ (height - 1) := by
    have hpow : 2 ^ height = 2 * 2 ^ (height - 1) := by
      conv_lhs => rw [show height = height - 1 + 1 from by omega]
      ring
    omega
  have hdiv0 : i / 2 / 2 ^ (height - 1) = 0 :=
    Nat.div_eq_of_lt (lt_of_lt_of_le hi2 hk2)
  have hgetd := flattenPairs_getD ps (i / 2) hi2
  have hleft : t.leaves.getD (i / 2 * 2) 0 = (ps.getD (i / 2) (0, 0)).1 := by
    rw [hl]
    exact hgetd.1
  have hright : t.leaves.getD (i / 2 * 2 + 1) 0 = (ps.getD (i / 2) (0, 0)).2 := by
    rw [hl]
    exact hgetd.2
  have hpairval : hasher.hash2 (t.leaves.getD (i / 2 * 2) 0)
      (t.leaves.getD (i / 2 * 2 + 1) 0)
      = nodeVal hasher (emptyHashChain hasher emptyLeaf)
          (ps.map (pairHashOf hasher)) 0 (i / 2) := by
    rw [hleft, hright,
      nodeVal_zero_getD hasher (emptyHashChain hasher emptyLeaf) ps (i / 2) hi2]
    rfl
  have hmemside : t.leaves.getD i 0 = t.leaves.getD (i / 2 * 2) 0 ∨
      t.leaves.getD i 0 = t.leaves.getD (i / 2 * 2 + 1) 0 := by
    rcases Nat.mod_two_eq_zero_or_one i with hp | hp
    · left
      congr 1
      omega
    · right
      congr 1
      omega
  have hroot : ∀ pa, t.generateMembershipProof tb i = some pa →
      calculateRoot hasher (t.leaves.getD i 0) pa = t.root := by
    intro pa hpa
    unfold SparseMerkleTree.generateMembershipProof at hpa
    rw [if_neg (by omega), hhasher] at hpa
    obtain rfl := (Option.some.inj hpa).symm
    rw [calculateRoot_eq, List.foldl_cons]
    rw [if_pos h21]
    rw [calcStep_mem hasher (t.leaves.getD i 0) _ hmemside]
    dsimp only
    rw [hpairval, hh]
    obtain ⟨-, -, e3⟩ := extract_spec hasher emptyLeaf height ps t hinv' hne
      (i / 2) hi2 (height - 1)
    rw [e3, hdiv0]
    exact (hrootinv hne).symm
  obtain ⟨path, hpa⟩ : ∃ pa, t.generateMembershipProof tb i = some pa := by
    unfold SparseMerkleTree.generateMembershipProof
    rw [if_neg (by omega)]
    exact ⟨_, rfl⟩
  refine ⟨path, hpa, hroot path hpa, ?_⟩
  simp only [checkMembership, hroot path hpa, beq_self_eq_true]

/-- **C6.**  For every sequence of leaf pairs of even total length at most
`2^H` inserted in order into `SparseMerkleTree<H>` via `insert_pair` (the
state `SparseMerkleTree::new` builds), and for every index `i < leaves.len`,
the path returned by `generate_membership_proof(i)` satisfies
`calculate_root(leaves[i], path) = tree.root()`, and hence
`check_membership(root, leaves[i])` returns `true`. -/
theorem merkle_membership_roundtrip (tb : ConstTables) (emptyLeaf : F)
    (height : ℕ) (ps : List (F × F))
    (hcap : 2 * ps.length ≤ 2 ^ height) :
    ∃ t, SparseMerkleTree.new ps (PoseidonOptimized.new_t3 tb) emptyLeaf height
        = some t ∧
      ∀ i, i < t.leaves.length →
        ∃ path, t.generateMembershipProof tb i = some path ∧
          calculateRoot (PoseidonOptimized.new_t3 tb) (t.leaves.getD i 0) path
            = t.root ∧
          checkMembership (PoseidonOptimized.new_t3 tb) t.root
            (t.leaves.getD i 0) path = true := by
  obtain ⟨t, hnew⟩ := insertPairs_total (PoseidonOptimized.new_t3 tb) emptyLeaf
    height ps []
    (SparseMerkleTree.newEmpty (PoseidonOptimized.new_t3 tb) emptyLeaf height)
    (newEmpty_inv _ _ _) (by simpa using hcap)
  have hinv := new_inv (PoseidonOptimized.new_t3 tb) emptyLeaf height ps t hnew
  exact ⟨t, hnew, fun i hi =>
    generated_path_ok (PoseidonOptimized.new_t3 tb) tb rfl emptyLeaf height
      ps t hinv i hi⟩

theorem merkle_membership_roundtrip_witness :
    2 * [((1 : F), (2 : F))].length ≤ 2 ^ 2 ∧
    ∃ t, SparseMerkleTree.new [((1 : F), (2 : F))]
        (PoseidonOptimized.new_t3 tbW) 0 2 = some t ∧
      ∀ i, i < t.leaves.length →
        ∃ path, t.generateMembershipProof tbW i = some path ∧
          calculateRoot (PoseidonOptimized.new_t3 tbW) (t.leaves.getD i 0) path
            = t.root ∧
          checkMembership (PoseidonOptimized.new_t3 tbW) t.root
            (t.leaves.getD i 0) path = true :=
  ⟨by decide, merkle_membership_roundtrip tbW 0 2 [(1, 2)] (by decide)⟩

theorem parseDecCore_hex_prefix (l : List Char) :
    parseDecCore ('0' :: 'x' :: l) = none := by
  have hx : ('x').isDigit = false := rfl
  simp only [parseDecCore, stripPlus]
  rw [if_neg (by decide : ¬('0' = '+'))]
  simp [hx]

theorem parseDecCore_digits (cs : List Char) (h1 : cs ≠ [])
    (h2 : ∀ ch ∈ cs, ch.isDigit) : parseDecCore cs = some (decFold cs) := by
  have hplus : stripPlus cs = cs := by
    cases cs with
    | nil => rfl
    | cons c rest =>
      simp only [stripPlus]
      rw [if_neg]
      intro hc
      subst hc
      have := h2 '+' (List.mem_cons_self _ _)
      simp [Char.isDigit] at this
  unfold parseDecCore
  rw [hplus,
    if_neg (by simpa [List.isEmpty_iff] using h1),
    if_pos (by simpa [List.all_eq_true] using h2)]

/-- **C9, counterexample.**  For the native prove entry point's field-string
parser `parse_fr`: a legal `0x`-prefixed hex encoding is rejected, while the
decimal string of the field order — an integer that is not an element of `F` — is
accepted and silently reduced to `0` instead of producing an error. -/
theorem parseFr_hex_rejected_overflow_accepted :
    parseFr "0x10" = none ∧
    parseFr "21888242871839275222246405745257275088548364400416034343698204186575808495617"
      = some 0 :=
  ⟨by decide, by decide⟩

/-- **C9, amended.**  The native prove entry point (`parse_fr`) accepts only
unsigned decimal strings: every `0x`-prefixed string is rejected, every
nonempty all-digit string is accepted with its integer value reduced modulo
the field order (values `≥ fieldOrder` are not errors).  The browser entry
point's `parse_field_element` accepts both encodings, with the same modular
reduction. -/
theorem parse_field_strings :
    (∀ rest : String, parseFr ("0x" ++ rest) = none) ∧
    (∀ cs : List Char, cs ≠ [] → (∀ ch ∈ cs, ch.isDigit) →
      parseFr (String.mk cs) = some ((decFold cs : ℕ) : F)) ∧
    parseFieldElement "0x1f" = some 31 ∧
    parseFieldElement "31" = some 31 ∧
    parseFieldElement
        "21888242871839275222246405745257275088548364400416034343698204186575808495618"
      = some 1 := by
  refine ⟨fun rest => ?_, fun cs h1 h2 => ?_, by decide, by decide, by decide⟩
  · have hdata : ("0x" ++ rest).data = '0' :: 'x' :: rest.data := by
      have h2 : ("0x").data = ['0', 'x'] := rfl
      simp [String.data_append, h2]
    simp only [parseFr, hdata, parseDecCore_hex_prefix]
    rfl
  · simp only [parseFr, show (String.mk cs).data = cs from rfl,
      parseDecCore_digits cs h1 h2]
    rfl

/-- **C9, amended, witness.** -/
theorem parse_field_strings_witness :
    parseFr ("0x" ++ "10") = none ∧
    parseFr (String.mk ['4', '2']) = some ((decFold ['4', '2'] : ℕ) : F) :=
  ⟨parse_field_strings.1 "10",
   parse_field_strings.2.1 ['4', '2'] (by decide) (by decide)⟩

/-- **C10.**  The exported `poseidon2` / `poseidon3` / `poseidon4` bindings
return an `Input` error whenever the supplied vector of strings has length
other than 2 / 3 / 4; with the right length and all strings parsing as field
elements they return the decimal string of the corresponding Poseidon hash. -/
theorem poseidon_bindings_arity (tb3 tb4 tb5 : ConstTables) :
    (∀ inputs : List String, inputs.length ≠ 2 →
      poseidon2 tb3 inputs
        = Except.error (BindingError.inputError "poseidon2 requires 2 inputs")) ∧
    (∀ (a b : String) (x y : F), parseFr a = some x → parseFr b = some y →
      poseidon2 tb3 [a, b]
        = Except.ok (frToString ((PoseidonOptimized.new_t3 tb3).hash2 x y))) ∧
    (∀ inputs : List String, inputs.length ≠ 3 →
      poseidon3 tb4 inputs
        = Except.error (BindingError.inputError "poseidon3 requires 3 inputs")) ∧
    (∀ (a b c : String) (x y z : F),
      parseFr a = some x → parseFr b = some y → parseFr c = some z →
      poseidon3 tb4 [a, b, c]
        = Except.ok (frToString ((PoseidonOptimized.new_t4 tb4).hash3 x y z))) ∧
    (∀ inputs : List String, inputs.length ≠ 4 →
      poseidon4 tb5 inputs
        = Except.error (BindingError.inputError "poseidon4 requires 4 inputs")) ∧
    (∀ (a b c d : String) (x y z w : F),
      parseFr a = some x → parseFr b = some y → parseFr c = some z →
      parseFr d = some w →
      poseidon4 tb5 [a, b, c, d]
        = Except.ok (frToString ((PoseidonOptimized.new_t5 tb5).hash4 x y z w))) := by
  refine ⟨fun l h => ?_, fun a b x y ha hb => ?_, fun l h => ?_,
    fun a b c x y z ha hb hc => ?_, fun l h => ?_,
    fun a b c d x y z w ha hb hc hd => ?_⟩
  · simp only [poseidon2, if_pos h]
  · simp only [poseidon2, collectFr, parseFrE, ha, hb]
    rfl
  · simp only [poseidon3, if_pos h]
  · simp only [poseidon3, collectFr, parseFrE, ha, hb, hc]
    rfl
  · simp only [poseidon4, if_pos h]
  · simp only [poseidon4, collectFr, parseFrE, ha, hb, hc, hd]
    rfl

/-- **C10, witness.** -/
theorem poseidon_bindings_arity_witness :
    poseidon2 tbW ["1"]
        = Except.error (BindingError.inputError "poseidon2 requires 2 inputs") ∧
    poseidon2 tbW ["1", "2"]
        = Except.ok (frToString ((PoseidonOptimized.new_t3 tbW).hash2 1 2)) ∧
    poseidon3 tbW ["1", "2", "3", "4"]
        = Except.error (BindingError.inputError "poseidon3 requires 3 inputs") ∧
    poseidon3 tbW ["1", "2", "3"]
        = Except.ok (frToString ((PoseidonOptimized.new_t4 tbW).hash3 1 2 3)) ∧
    poseidon4 tbW []
        = Except.error (BindingError.inputError "poseidon4 requires 4 inputs") ∧
    poseidon4 tbW ["1", "2", "3", "4"]
        = Except.ok (frToString ((PoseidonOptimized.new_t5 tbW).hash4 1 2 3 4)) :=
  ⟨(poseidon_bindings_arity tbW tbW tbW).1 ["1"] (by decide),
   (poseidon_bindings_arity tbW tbW tbW).2.1 "1" "2" 1 2 (by decide) (by decide),
   (poseidon_bindings_arity tbW tbW tbW).2.2.1 ["1", "2", "3", "4"] (by decide),
   (poseidon_bindings_arity tbW tbW tbW).2.2.2.1 "1" "2" "3" 1 2 3
     (by decide) (by decide) (by decide),
   (poseidon_bindings_arity tbW tbW tbW).2.2.2.2.1 [] (by decide),
   (poseidon_bindings_arity tbW tbW tbW).2.2.2.2.2 "1" "2" "3" "4" 1 2 3 4
     (by decide) (by decide) (by decide) (by decide)⟩

end Vortex
